import Mathlib

/-!
Verification development for the csvpresto grouped-aggregation program
(src/csvpresto.py).  The Python source is shallowly embedded: a row is a
list of `Option String` fields (`none` models the Python `None` marker of
the synthetic terminal row), Python `float` values are modelled as exact
rationals built with `mkRat`, and Python's stable `list.sort` is modelled
by a stable insertion sort.
-/

namespace CsvPresto

/-- Python sequence indexing: a negative index counts from the end of the
sequence; an index out of range yields `none` (an `IndexError` in Python). -/
def pyIdx (n : Nat) (i : Int) : Option Nat :=
  if 0 ≤ i then (if i < (n : Int) then some i.toNat else none)
  else (if 0 ≤ i + (n : Int) then some (i + (n : Int)).toNat else none)

/-- Python `l[i]` for a list, with Python's negative-index convention. -/
def pyGet (l : List α) (i : Int) : Option α :=
  (pyIdx l.length i).bind (fun k => l.get? k)

/-- Python slicing `l[:stop]` (used by `display` and `display_as_csv`). -/
def pySliceTo (l : List α) (stop : Int) : List α :=
  if stop < 0 then l.take ((l.length : Int) + stop).toNat else l.take stop.toNat

/-- Insert `x` into `l` in front of the first element `y` with `le x y`.
One step of a stable sort: an element equal to `x` under `le` that was
already in `l` stays behind `x` only if it occurs after the insertion
point, so original relative order of ties is preserved. -/
def insSorted (le : α → α → Bool) (x : α) : List α → List α
  | [] => [x]
  | y :: ys => if le x y then x :: y :: ys else y :: insSorted le x ys

/-- Stable insertion sort.  This models Python's stable `list.sort` with
comparator `le`: ties keep their original relative order. -/
def stableSort (le : α → α → Bool) : List α → List α
  | [] => []
  | x :: xs => insSorted le x (stableSort le xs)

theorem insSorted_perm (le : α → α → Bool) (x : α) (l : List α) :
    (insSorted le x l).Perm (x :: l) := by
  induction l with
  | nil => simp [insSorted]
  | cons y ys ih =>
    by_cases h : le x y = true
    · simp [insSorted, h]
    · simp only [insSorted, if_neg h]
      exact (ih.cons y).trans (List.Perm.swap x y ys)

theorem stableSort_perm (le : α → α → Bool) (l : List α) :
    (stableSort le l).Perm l := by
  induction l with
  | nil => simp [stableSort]
  | cons x xs ih =>
    exact (insSorted_perm le x _).trans (ih.cons x)

theorem mem_insSorted {le : α → α → Bool} {x y : α} {l : List α} :
    y ∈ insSorted le x l ↔ y = x ∨ y ∈ l := by
  rw [(insSorted_perm le x l).mem_iff, List.mem_cons]

theorem mem_stableSort {le : α → α → Bool} {y : α} {l : List α} :
    y ∈ stableSort le l ↔ y ∈ l :=
  (stableSort_perm le l).mem_iff

/-- Inserting an element below (for `W`) everything in an `le`-sorted list
keeps the list sorted for the combined order `le`-then-`W`.  This is the
heart of the stability argument for iterated stable sorts. -/
theorem insSorted_pairwise_comb {le : α → α → Bool} {W : α → α → Prop}
    (htot : ∀ a b, le a b = true ∨ le b a = true)
    (htr : ∀ a b c, le a b = true → le b c = true → le a c = true)
    (x : α) (l : List α)
    (hl : l.Pairwise (fun a b => le a b = true ∧ (le b a = true → W a b)))
    (hx : ∀ y ∈ l, W x y) :
    (insSorted le x l).Pairwise
      (fun a b => le a b = true ∧ (le b a = true → W a b)) := by
  induction l with
  | nil => simp [insSorted]
  | cons y ys ih =>
    rw [List.pairwise_cons] at hl
    obtain ⟨hy, hys⟩ := hl
    by_cases h : le x y = true
    · simp only [insSorted, if_pos h]
      rw [List.pairwise_cons]
      refine ⟨?_, List.pairwise_cons.2 ⟨hy, hys⟩⟩
      intro z hz
      rcases List.mem_cons.1 hz with rfl | hz'
      · exact ⟨h, fun _ => hx z (List.mem_cons_self _ _)⟩
      · exact ⟨htr x y z h (hy z hz').1,
          fun _ => hx z (List.mem_cons_of_mem _ hz')⟩
    · simp only [insSorted, if_neg h]
      rw [List.pairwise_cons]
      constructor
      · intro z hz
        rcases mem_insSorted.1 hz with rfl | hz'
        · rcases htot z y with hzy | hyz
          · exact absurd hzy h
          · exact ⟨hyz, fun hzy' => absurd hzy' h⟩
        · exact hy z hz'
      · exact ih hys (fun z hz => hx z (List.mem_cons_of_mem _ hz))

/-- Stable-sorting a `W`-sorted list with `le` yields a list sorted for the
combined order: `le` first, original (`W`) order on `le`-ties. -/
theorem stableSort_pairwise_comb {le : α → α → Bool} {W : α → α → Prop}
    (htot : ∀ a b, le a b = true ∨ le b a = true)
    (htr : ∀ a b c, le a b = true → le b c = true → le a c = true)
    (l : List α) (hl : l.Pairwise W) :
    (stableSort le l).Pairwise
      (fun a b => le a b = true ∧ (le b a = true → W a b)) := by
  induction l with
  | nil => simp [stableSort]
  | cons x xs ih =>
    rw [List.pairwise_cons] at hl
    exact insSorted_pairwise_comb htot htr x _ (ih hl.2)
      (fun y hy => hl.1 y (mem_stableSort.1 hy))

theorem stableSort_pairwise {le : α → α → Bool}
    (htot : ∀ a b, le a b = true ∨ le b a = true)
    (htr : ∀ a b c, le a b = true → le b c = true → le a c = true)
    (l : List α) :
    (stableSort le l).Pairwise (fun a b => le a b = true) := by
  have h := stableSort_pairwise_comb htot htr l
    (List.pairwise_iff_forall_sublist.2 (fun _ => trivial) : l.Pairwise (fun _ _ => True))
  exact h.imp (fun hab => hab.1)

theorem stableSort_of_pairwise {le : α → α → Bool} {l : List α}
    (h : l.Pairwise (fun a b => le a b = true)) :
    stableSort le l = l := by
  induction l with
  | nil => rfl
  | cons x xs ih =>
    rw [List.pairwise_cons] at h
    rw [stableSort, ih h.2]
    cases xs with
    | nil => rfl
    | cons y ys => simp [insSorted, h.1 y (List.mem_cons_self _ _)]

theorem insSorted_map (f : α → β) (le : β → β → Bool) (x : α) (l : List α) :
    insSorted le (f x) (l.map f) = (insSorted (fun a b => le (f a) (f b)) x l).map f := by
  induction l with
  | nil => rfl
  | cons y ys ih =>
    simp only [List.map_cons, insSorted]
    by_cases h : le (f x) (f y) = true
    · simp [h]
    · simp [h, ih]

theorem stableSort_map (f : α → β) (le : β → β → Bool) (l : List α) :
    stableSort le (l.map f) = (stableSort (fun a b => le (f a) (f b)) l).map f := by
  induction l with
  | nil => rfl
  | cons x xs ih => rw [List.map_cons, stableSort, ih, insSorted_map, stableSort]

/-- Two sorted permutations of each other agree, provided the sort relation
can only hold both ways between entries carrying the same tag and the tags
are distinct.  Used with position-tagged rows to pin down the unique stable
sort result. -/
theorem pairwise_perm_nodupFst_eq {R : ℕ × β → ℕ × β → Prop}
    (hR : ∀ p q, R p q → R q p → p.1 = q.1) :
    ∀ (l1 l2 : List (ℕ × β)), l1.Perm l2 → l1.Pairwise R → l2.Pairwise R →
      (l1.map Prod.fst).Nodup → l1 = l2 := by
  intro l1
  induction l1 with
  | nil =>
    intro l2 hp _ _ _
    exact (hp.nil_eq).symm ▸ rfl
  | cons p t1 ih =>
    intro l2 hp h1 h2 hnd
    cases l2 with
    | nil => exact absurd hp.symm.nil_eq (by simp)
    | cons q t2 =>
      by_cases hpq : p = q
      · subst hpq
        rw [List.pairwise_cons] at h1 h2
        rw [List.map_cons, List.nodup_cons] at hnd
        rw [ih t2 (hp.cons_inv) h1.2 h2.2 hnd.2]
      · exfalso
        have hpmem : p ∈ q :: t2 := hp.subset (List.mem_cons_self _ _)
        have hqmem : q ∈ p :: t1 := hp.symm.subset (List.mem_cons_self _ _)
        have hpt2 : p ∈ t2 := by
          rcases List.mem_cons.1 hpmem with h | h
          · exact absurd h hpq
          · exact h
        have hqt1 : q ∈ t1 := by
          rcases List.mem_cons.1 hqmem with h | h
          · exact absurd h.symm hpq
          · exact h
        rw [List.pairwise_cons] at h1 h2
        have h12 : p.1 = q.1 := hR p q (h1.1 q hqt1) (h2.1 p hpt2)
        rw [List.map_cons, List.nodup_cons] at hnd
        exact hnd.1 (h12 ▸ List.mem_map_of_mem Prod.fst hqt1)

/-- Option-lifted comparator: Python never actually compares the `none`
marker (the terminal row is appended after sorting), so the `none` cases
are unreachable in any executed path; `none` is placed first. -/
def optLeB (le : γ → γ → Bool) : Option γ → Option γ → Bool
  | none, _ => true
  | some _, none => false
  | some a, some b => le a b

/-- Lexicographic combination of a per-column comparator family, in
column-list order (first listed column is the primary key). -/
def lexFamB (F : Int → α → α → Bool) : List Int → α → α → Bool
  | [], _, _ => true
  | c :: cs, a, b => if F c a b then (if F c b a then lexFamB F cs a b else true) else false

/-- Strictification by a position tag: compare by `W`, break `W`-ties by
tag order.  A stable sort by `W` of a distinctly tagged list is the unique
permutation sorted by this relation. -/
def withIdxB (W : β → β → Bool) (p q : ℕ × β) : Bool :=
  W p.2 q.2 && (!(W q.2 p.2) || decide (p.1 ≤ q.1))

theorem lexFamB_cons_iff {F : Int → α → α → Bool} {c : Int} {cs : List Int} {a b : α} :
    lexFamB F (c :: cs) a b = true ↔
      F c a b = true ∧ (F c b a = true → lexFamB F cs a b = true) := by
  simp only [lexFamB]
  cases hab : F c a b <;> cases hba : F c b a <;> simp

theorem lexFamB_total {F : Int → α → α → Bool}
    (htot : ∀ c a b, F c a b = true ∨ F c b a = true) :
    ∀ (cols : List Int) (a b : α), lexFamB F cols a b = true ∨ lexFamB F cols b a = true := by
  intro cols
  induction cols with
  | nil => intro a b; left; rfl
  | cons c cs ih =>
    intro a b
    cases hab : F c a b <;> cases hba : F c b a
    · rcases htot c a b with h | h
      · exact absurd h (by simp [hab])
      · exact absurd h (by simp [hba])
    · exact Or.inr (lexFamB_cons_iff.2 ⟨hba, fun h => absurd h (by simp [hab])⟩)
    · exact Or.inl (lexFamB_cons_iff.2 ⟨hab, fun h => absurd h (by simp [hba])⟩)
    · rcases ih a b with h | h
      · exact Or.inl (lexFamB_cons_iff.2 ⟨hab, fun _ => h⟩)
      · exact Or.inr (lexFamB_cons_iff.2 ⟨hba, fun _ => h⟩)

theorem lexFamB_trans {F : Int → α → α → Bool}
    (htr : ∀ c a b x, F c a b = true → F c b x = true → F c a x = true) :
    ∀ (cols : List Int) (a b x : α), lexFamB F cols a b = true →
      lexFamB F cols b x = true → lexFamB F cols a x = true := by
  intro cols
  induction cols with
  | nil => intro a b x _ _; rfl
  | cons c cs ih =>
    intro a b x hab hbx
    obtain ⟨hab1, hab2⟩ := lexFamB_cons_iff.1 hab
    obtain ⟨hbx1, hbx2⟩ := lexFamB_cons_iff.1 hbx
    refine lexFamB_cons_iff.2 ⟨htr c a b x hab1 hbx1, fun hxa => ?_⟩
    have hba : F c b a = true := htr c b x a hbx1 hxa
    have hxb : F c x b = true := htr c x a b hxa hab1
    exact ih a b x (hab2 hba) (hbx2 hxb)

theorem withIdxB_true_iff {W : β → β → Bool} {p q : ℕ × β} :
    withIdxB W p q = true ↔
      W p.2 q.2 = true ∧ (W q.2 p.2 = true → p.1 ≤ q.1) := by
  simp only [withIdxB]
  cases h1 : W p.2 q.2 <;> cases h2 : W q.2 p.2 <;> simp

theorem withIdxB_total {W : β → β → Bool}
    (htot : ∀ a b, W a b = true ∨ W b a = true) (p q : ℕ × β) :
    withIdxB W p q = true ∨ withIdxB W q p = true := by
  rcases htot p.2 q.2 with h | h
  · by_cases h2 : W q.2 p.2 = true
    · rcases Nat.le_total p.1 q.1 with hle | hle
      · exact Or.inl (withIdxB_true_iff.2 ⟨h, fun _ => hle⟩)
      · exact Or.inr (withIdxB_true_iff.2 ⟨h2, fun _ => hle⟩)
    · exact Or.inl (withIdxB_true_iff.2 ⟨h, fun hq => absurd hq h2⟩)
  · by_cases h2 : W p.2 q.2 = true
    · rcases Nat.le_total p.1 q.1 with hle | hle
      · exact Or.inl (withIdxB_true_iff.2 ⟨h2, fun _ => hle⟩)
      · exact Or.inr (withIdxB_true_iff.2 ⟨h, fun _ => hle⟩)
    · exact Or.inr (withIdxB_true_iff.2 ⟨h, fun hq => absurd hq h2⟩)

theorem withIdxB_trans {W : β → β → Bool}
    (htr : ∀ a b x, W a b = true → W b x = true → W a x = true)
    (p q r : ℕ × β) (hpq : withIdxB W p q = true) (hqr : withIdxB W q r = true) :
    withIdxB W p r = true := by
  obtain ⟨hpq1, hpq2⟩ := withIdxB_true_iff.1 hpq
  obtain ⟨hqr1, hqr2⟩ := withIdxB_true_iff.1 hqr
  refine withIdxB_true_iff.2 ⟨htr _ _ _ hpq1 hqr1, fun hrp => ?_⟩
  have hqp : W q.2 p.2 = true := htr _ _ _ hqr1 hrp
  have hrq : W r.2 q.2 = true := htr _ _ _ hrp hpq1
  exact le_trans (hpq2 hqp) (hqr2 hrq)

theorem withIdxB_fst_eq {W : β → β → Bool} {p q : ℕ × β}
    (h1 : withIdxB W p q = true) (h2 : withIdxB W q p = true) : p.1 = q.1 := by
  obtain ⟨h1a, h1b⟩ := withIdxB_true_iff.1 h1
  obtain ⟨h2a, h2b⟩ := withIdxB_true_iff.1 h2
  exact Nat.le_antisymm (h1b h2a) (h2b h1a)

theorem withIdxB_lexFamB_cons_iff {F : Int → α → α → Bool} {c : Int}
    {cs : List Int} {p q : ℕ × α} :
    withIdxB (lexFamB F (c :: cs)) p q = true ↔
      (F c p.2 q.2 = true ∧
        (F c q.2 p.2 = true → withIdxB (lexFamB F cs) p q = true)) := by
  rw [withIdxB_true_iff, withIdxB_true_iff, lexFamB_cons_iff, lexFamB_cons_iff]
  cases h1 : F c p.2 q.2 <;> cases h2 : F c q.2 p.2 <;> simp

theorem enumFrom_fst_lt_of_mem {p : ℕ × α} :
    ∀ {n : ℕ} {l : List α}, p ∈ List.enumFrom n l → n ≤ p.1 := by
  intro n l
  induction l generalizing n with
  | nil => intro h; simp [List.enumFrom] at h
  | cons x xs ih =>
    intro h
    rcases List.mem_cons.1 h with rfl | h'
    · exact le_refl _
    · exact le_trans (Nat.le_succ n) (ih h')

theorem enumFrom_pairwise_fst_lt :
    ∀ (n : ℕ) (l : List α), (List.enumFrom n l).Pairwise (fun p q => p.1 < q.1) := by
  intro n l
  induction l generalizing n with
  | nil => simp [List.enumFrom]
  | cons x xs ih =>
    rw [List.enumFrom, List.pairwise_cons]
    exact ⟨fun q hq => lt_of_lt_of_le (Nat.lt_succ_self n) (enumFrom_fst_lt_of_mem hq),
      ih (n + 1)⟩

theorem enum_pairwise_fst_lt (l : List α) :
    l.enum.Pairwise (fun p q => p.1 < q.1) :=
  enumFrom_pairwise_fst_lt 0 l

/-- Master lemma: iterating a stable sort once per column, in reverse
column order, equals a single stable sort of the position-tagged list by
the tag-strictified lexicographic order, with tags erased afterwards.
This packages sortedness, stability and permutation in one equation. -/
theorem multiPass_eq_enumSort {F : Int → α → α → Bool}
    (htot : ∀ c a b, F c a b = true ∨ F c b a = true)
    (htr : ∀ c a b x, F c a b = true → F c b x = true → F c a x = true) :
    ∀ (cols : List Int) (l : List α),
      cols.reverse.foldl (fun d c => stableSort (F c) d) l
        = (stableSort (withIdxB (lexFamB F cols)) l.enum).map Prod.snd := by
  intro cols
  induction cols with
  | nil =>
    intro l
    have hid : stableSort (withIdxB (lexFamB F [])) l.enum = l.enum := by
      apply stableSort_of_pairwise
      refine (enum_pairwise_fst_lt l).imp ?_
      intro p q h
      exact withIdxB_true_iff.2 ⟨rfl, fun _ => le_of_lt h⟩
    simp [hid, List.enum_map_snd]
  | cons c cs ih =>
    intro l
    rw [List.reverse_cons, List.foldl_append, ih l, List.foldl_cons, List.foldl_nil]
    rw [stableSort_map]
    set E1 := stableSort (withIdxB (lexFamB F cs)) l.enum with hE1
    set E2 := stableSort (fun p q : ℕ × α => F c p.2 q.2) E1 with hE2
    set E3 := stableSort (withIdxB (lexFamB F (c :: cs))) l.enum with hE3
    have htotCs := lexFamB_total htot cs
    have htrCs := lexFamB_trans htr cs
    have htotCcs := lexFamB_total htot (c :: cs)
    have htrCcs := lexFamB_trans htr (c :: cs)
    have hWtotCs := fun p q => withIdxB_total htotCs p q
    have hWtrCs := withIdxB_trans htrCs
    have hWtotCcs := fun p q => withIdxB_total htotCcs p q
    have hWtrCcs := withIdxB_trans htrCcs
    have hE2E3 : E2 = E3 := by
      apply pairwise_perm_nodupFst_eq (fun p q => withIdxB_fst_eq)
      · exact ((stableSort_perm _ E1).trans (stableSort_perm _ l.enum)).trans
          (stableSort_perm _ l.enum).symm
      · have hE1p : E1.Pairwise (fun p q => withIdxB (lexFamB F cs) p q = true) :=
          stableSort_pairwise hWtotCs hWtrCs l.enum
        have hcomb := @stableSort_pairwise_comb (ℕ × α)
          (fun p q => F c p.2 q.2)
          (fun p q => withIdxB (lexFamB F cs) p q = true)
          (fun p q => htot c p.2 q.2) (fun p q r => htr c p.2 q.2 r.2) E1 hE1p
        refine hcomb.imp ?_
        intro p q h
        exact withIdxB_lexFamB_cons_iff.2 h
      · exact stableSort_pairwise hWtotCcs hWtrCcs l.enum
      · have hperm : (E2.map Prod.fst).Perm (l.enum.map Prod.fst) :=
          List.Perm.map Prod.fst
            ((stableSort_perm _ E1).trans (stableSort_perm _ l.enum))
        rw [hperm.nodup_iff, List.enum_map_fst]
        exact List.nodup_range _
    rw [hE2E3]

/-- Lexicographic comparison of character lists by Unicode code point,
exactly Python's string ordering. -/
def strLeChars : List Char → List Char → Bool
  | [], _ => true
  | _ :: _, [] => false
  | a :: as_, b :: bs =>
    if a.toNat < b.toNat then true
    else if b.toNat < a.toNat then false
    else strLeChars as_ bs

/-- Python string comparison `a <= b`. -/
def strLeB (a b : String) : Bool := strLeChars a.data b.data

/-- A field of a row: `some s` is a CSV string field; `none` models the
Python `None` marker filling the synthetic terminal row (source line 272). -/
abbrev Field := Option String

/-- Comparator on fields.  Executed paths only ever compare string fields
(the terminal row is appended after sorting); `none` is placed first. -/
def fieldLeB : Field → Field → Bool
  | none, _ => true
  | some _, none => false
  | some a, some b => strLeB a b

/-- Exact rational addition via `mkRat` (kernel-computable, unlike the
irreducible `Rat.add`).  Python float arithmetic is modelled exactly. -/
def qadd (a b : ℚ) : ℚ :=
  mkRat (a.num * (b.den : Int) + b.num * (a.den : Int)) (a.den * b.den)

/-- Python `sum`: left fold of `+` starting from `0`. -/
def qsum (l : List ℚ) : ℚ := l.foldl qadd 0

/-- Exact division of a rational by a natural number. -/
def qdivNat (a : ℚ) (n : ℕ) : ℚ := mkRat a.num (a.den * n)

/-- Accumulate decimal digits into a natural number. -/
def digitsToNat : List Char → ℕ → ℕ
  | [], n => n
  | c :: cs, n => digitsToNat cs (10 * n + (c.toNat - 48))

def allDigits (l : List Char) : Bool := l.all Char.isDigit

/-- Strip leading and trailing whitespace, as Python `float` does. -/
def pyStrip (cs : List Char) : List Char :=
  ((cs.dropWhile Char.isWhitespace).reverse.dropWhile Char.isWhitespace).reverse

/-- Parse an optionally signed decimal literal with optional fraction part
and optional exponent, returning its exact rational value. -/
def pyFloatCore (cs : List Char) : Option ℚ :=
  let sgn : Int := match cs with | '-' :: _ => -1 | _ => 1
  let cs1 : List Char := match cs with | '+' :: t => t | '-' :: t => t | t => t
  let mant := cs1.takeWhile (fun c => !(c == 'e' || c == 'E'))
  let rest := cs1.dropWhile (fun c => !(c == 'e' || c == 'E'))
  let ip := mant.takeWhile (fun c => !(c == '.'))
  let rest2 := mant.dropWhile (fun c => !(c == '.'))
  let fpOpt : Option (List Char) :=
    match rest2 with
    | [] => some []
    | '.' :: t => some t
    | _ => none
  match fpOpt with
  | none => none
  | some fpl =>
    if allDigits ip && allDigits fpl && !(ip.isEmpty && fpl.isEmpty) then
      let base : ℚ := mkRat (sgn * (digitsToNat (ip ++ fpl) 0 : ℕ)) (10 ^ fpl.length)
      match rest with
      | [] => some base
      | _ :: t =>
        let esgn : Int := match t with | '-' :: _ => -1 | _ => 1
        let ed : List Char := match t with | '+' :: u => u | '-' :: u => u | u => u
        if allDigits ed && !ed.isEmpty then
          let e : Int := esgn * (digitsToNat ed 0 : ℕ)
          some (if 0 ≤ e then mkRat (base.num * ((10 : ℕ) ^ e.toNat : ℕ)) base.den
                else mkRat base.num (base.den * 10 ^ (-e).toNat))
        else none
    else none

/-- Model of Python `float(s)` restricted to finite decimal literals
(optional surrounding whitespace, optional sign, digits with optional
decimal point, optional exponent).  The `inf`/`nan` spellings and digit
underscores Python also accepts are outside this model; every string the
model accepts, Python accepts with the same exact value. -/
def pyFloat (s : String) : Option ℚ := pyFloatCore (pyStrip s.data)

/-- Source lines 26-30, `data_sort`: the column list is walked in reverse
and the rows are stable-sorted once per column with Python's `list.sort`;
`reverse` mirrors the keyword argument (descending, ties keeping original
order).  `le` is the comparator of the dynamic cell type. -/
def pyRowLeB (le : γ → γ → Bool) (reverse : Bool) (col : Int) (r1 r2 : List γ) : Bool :=
  if reverse then optLeB le (pyGet r2 col) (pyGet r1 col)
  else optLeB le (pyGet r1 col) (pyGet r2 col)

def data_sort (le : γ → γ → Bool) (data : List (List γ)) (sort_cols : List Int)
    (reverse : Bool) : List (List γ) :=
  sort_cols.reverse.foldl (fun d col => stableSort (pyRowLeB le reverse col) d) data

/-- The composite key of a row: the cells at the sort columns, in
column-list order (`none` for an out-of-range column index). -/
def rowKeys (cols : List Int) (row : List γ) : List (Option γ) :=
  cols.map (fun c => pyGet row c)

/-- The constant extra field appended to every record (source line 232). -/
def ALL_ROWS : String := "ALL ROWS"

/-- Source line 232: every parsed CSV record, the header row included,
receives the constant string "ALL ROWS" as one extra final field. -/
def read_data (lines : List (List String)) : List (List Field) :=
  lines.map (fun l => l.map some ++ [some ALL_ROWS])

inductive Op where
  | SUM | COUNT | AVG | MIN | MAX | HEADERS
deriving DecidableEq

def opName : Op → String
  | .SUM => "SUM"
  | .COUNT => "COUNT"
  | .AVG => "AVG"
  | .MIN => "MIN"
  | .MAX => "MAX"
  | .HEADERS => "HEADERS"

/-- Source line 86: `self.combined_cols = self.group_cols + self.stat_cols`
is evaluated unconditionally.  When `-g` or `-s` was omitted the parsed
value is Python `None`, and `None + list` raises `TypeError`; the crash is
modelled by `none`. -/
def combined_cols (group_cols stat_cols : Option (List Int)) : Option (List Int) :=
  match group_cols, stat_cols with
  | some g, some s => some (g ++ s)
  | _, _ => none

/-- `ArgRetriever.__init__` after argparse, as far as the data flow is
concerned: line 86 computes `combined_cols` first, so an omitted column
list crashes here, before the "ALL ROWS" default substitution of source
lines 247-255 (module level) can ever run. -/
def arg_retriever_init (operation : Op) (group_cols stat_cols : Option (List Int)) :
    Except String (List Int) :=
  match combined_cols group_cols stat_cols with
  | none => .error "TypeError: unsupported operand type(s) for +"
  | some cc =>
    if (operation = Op.AVG ∨ operation = Op.SUM ∨ operation = Op.MIN ∨ operation = Op.MAX)
        ∧ stat_cols = none then
      .error ("Error: -s must be supplied for the " ++ opName operation ++ " operation.")
    else .ok cc

/-- Source lines 247-255: the intended module-level substitution of the
"ALL ROWS" column index for an omitted column list. -/
def default_cols (headers_len : ℕ) (cols : Option (List Int)) : List Int :=
  cols.getD [(headers_len : Int) - 1]

/-- Source lines 260-263: the column bounds check.  Python `max` of an
empty list raises `ValueError`; the check aborts iff the maximum of either
list is at least the header length. -/
def validate_cols (headers : List Field) (gcols scols : List Int) : Except String Unit :=
  match gcols.max?, scols.max? with
  | some mg, some ms =>
    if (headers.length : Int) ≤ mg then
      .error "Error: a specified group column is greater than the number of columns."
    else if (headers.length : Int) ≤ ms then
      .error "Error: a specified stat column is greater than the number of columns."
    else .ok ()
  | _, _ => .error "ValueError: max() arg is an empty sequence"

/-- Source line 285: the group projection
`[val for col, val in enumerate(row) if col in args.group_cols]` — the
fields whose 0-based position occurs in the group-column list, kept in row
(ascending-position) order, one occurrence per position. -/
def projRow (gcols : List Int) (row : List Field) : List Field :=
  (row.enum.filter (fun p => decide (((p.1 : ℕ) : Int) ∈ gcols))).map Prod.snd

/-- Selection of the elements whose position satisfies `p`; the position
counter starts at `n`.  Reference form of `projRow` used in proofs. -/
def pickIdx (p : ℕ → Bool) : ℕ → List α → List α
  | _, [] => []
  | n, a :: as_ => if p n then a :: pickIdx p (n + 1) as_ else pickIdx p (n + 1) as_

/-- Model of `safe_float(row[row_index], err)` as invoked at source lines
300-303: the numeric parse is attempted for every operation (COUNT
included); failure exits with the formatted error message. -/
def statValue (ctr : ℕ) (row : List Field) (c : Int) : Except String ℚ :=
  match pyGet row c with
  | some (some s) =>
    match pyFloat s with
    | some q => .ok q
    | none => .error ("Error: found non-numeric data '" ++ s ++ "' in row "
        ++ toString ctr ++ ", column " ++ toString c)
  | some none => .error "TypeError: float() argument must not be None"
  | none => .error "IndexError: list index out of range"

/-- The parsed stat value of a field, ignoring the error message. -/
def qval (row : List Field) (c : Int) : Option ℚ :=
  match pyGet row c with
  | some (some s) => pyFloat s
  | _ => none

/-- One finalize (`get_value`) of an accumulator holding `vs`: the base
class counts, the subclasses sum, average (`statistics.mean`), min and max
the values; Python raises on mean, min or max of an empty list, and the
factory rejects the HEADERS operation. -/
def acc_get_value (op : Op) (vs : List ℚ) : Except String ℚ :=
  match op with
  | .COUNT => .ok (vs.length : ℚ)
  | .SUM => .ok (qsum vs)
  | .AVG =>
    if vs.isEmpty then .error "StatisticsError: mean requires at least one data point"
    else .ok (qdivNat (qsum vs) vs.length)
  | .MIN =>
    match vs.min? with
    | some m => .ok m
    | none => .error "ValueError: min() arg is an empty sequence"
  | .MAX =>
    match vs.max? with
    | some m => .ok m
    | none => .error "ValueError: max() arg is an empty sequence"
  | .HEADERS => .error "ValueError: Bad Accumulator type: 'HEADERS'"

/-- Source lines 300-303: one pass of the inner loop, appending the parsed
value of each stat column to the corresponding accumulator; the first
parse failure aborts the run. -/
def accumRow (ctr : ℕ) (row : List Field) :
    List Int → List (List ℚ) → Except String (List (List ℚ))
  | [], accs => .ok accs
  | _ :: _, [] => .ok []
  | c :: cs, a :: as_ => do
    let q ← statValue ctr row c
    let rest ← accumRow ctr row cs as_
    .ok ((a ++ [q]) :: rest)

/-- An output cell: a group field or a finalized numeric value. -/
inductive Cell where
  | fld (f : Field)
  | num (q : ℚ)
deriving DecidableEq

/-- Comparator on output cells.  Python would raise `TypeError` comparing
a string with a float; result-table columns are homogeneous, so the
cross-constructor cases are unreachable and totalized arbitrarily. -/
def cellLeB : Cell → Cell → Bool
  | .fld a, .fld b => fieldLeB a b
  | .num a, .num b => decide (a ≤ b)
  | .fld _, .num _ => true
  | .num _, .fld _ => false

/-- The main grouping loop (source lines 283-305) over the sorted data
with the terminal all-`none` row already appended: on a change of the
projected group, the previous group's accumulators are finalized into one
result row; the loop breaks at the terminal row (the last list element);
otherwise every stat field of the row is parsed and accumulated, for every
operation, and `prev_group` becomes the current projection. -/
def groupLoop (op : Op) (gcols scols : List Int) :
    List (List Field) → List Field → List (List ℚ) → ℕ →
      Except String (List (List Cell))
  | [], _, _, _ => .ok []
  | [row], prev, accs, _ =>
    if projRow gcols row = prev then .ok []
    else do
      let vs ← accs.mapM (acc_get_value op)
      .ok [prev.map Cell.fld ++ vs.map Cell.num]
  | row :: rest, prev, accs, ctr =>
    if projRow gcols row = prev then do
      let accs2 ← accumRow ctr row scols accs
      groupLoop op gcols scols rest (projRow gcols row) accs2 (ctr + 1)
    else do
      let vs ← accs.mapM (acc_get_value op)
      let accs2 ← accumRow ctr row scols (accs.map (fun _ => ([] : List ℚ)))
      let out ← groupLoop op gcols scols rest (projRow gcols row) accs2 (ctr + 1)
      .ok ((prev.map Cell.fld ++ vs.map Cell.num) :: out)

/-- Source lines 271-305 after validation: sort the data by the group
columns, append the terminal row of `None`s sized from the first sorted
row, seed `prev_group` from the first row and run the grouping loop. -/
def compute_results (op : Op) (gcols scols : List Int) (data : List (List Field)) :
    Except String (List (List Cell)) :=
  let sorted := data_sort fieldLeB data gcols false
  let data2 := sorted ++ [List.replicate (sorted.headD []).length (none : Field)]
  groupLoop op gcols scols data2 (projRow gcols (data2.headD []))
    (scols.map (fun _ => ([] : List ℚ))) 0

/-- Source lines 278-281: the output header — the group column names in
the order the indices were specified, then "OP name" per stat column. -/
def result_headers (op : Op) (headers : List Field) (gcols scols : List Int) :
    List (Option String) :=
  gcols.map (fun c => (pyGet headers c).bind id)
    ++ scols.map (fun c => ((pyGet headers c).bind id).map
        (fun h => opName op ++ " " ++ h))

def max_col_width : ℕ := 15

def col_spacing : ℕ := 3

/-- Source lines 21-24, `pad_left`: left-pad with spaces to at least `n`
characters (no-op when already long enough). -/
def pad_left (s : String) (n : ℕ) : String :=
  String.mk (List.replicate (n - s.length) ' ') ++ s

/-- Python `str` of an output cell.  The repr of a numeric value is
idealized; no claim depends on its spelling. -/
def cellStr : Cell → String
  | .fld (some s) => s
  | .fld none => "None"
  | .num q => toString q

/-- Source lines 161-165, `list_to_colstring`: each item is rendered,
truncated to the width cap and left-padded into its column. -/
def list_to_colstring (toStr : δ → String) (l : List δ) (widths : List ℕ)
    (spacing maxw : ℕ) : String :=
  l.enum.foldl
    (fun s p => s ++ pad_left ((toStr p.2).take maxw) (min maxw (widths.getD p.1 0) + spacing))
    ""

/-- Source lines 154-159, `calculate_col_widths`: per column, the maximum
rendered width over the header and all rows (all rows: the grid is not
row-limited here). -/
def calculate_col_widths (headers : List String) (grid : List (List Cell)) : List ℕ :=
  grid.foldl
    (fun ws row => ws.enum.map (fun p =>
      match row.get? p.1 with
      | some cell => max p.2 (cellStr cell).length
      | none => p.2))
    (headers.map String.length)

/-- Source lines 125-146, `display`: a blank line, the header line, a rule
of 70 dashes, then one line per row of `data_grid[:rows]`, where `rows`
defaults to the full row count. -/
def display (headers : List String) (grid : List (List Cell)) (rows : Option Int) :
    List String :=
  let widths := calculate_col_widths headers grid
  let r : Int := match rows with | none => (grid.length : Int) | some k => k
  "" :: list_to_colstring id headers widths col_spacing max_col_width
    :: String.mk (List.replicate 70 '-')
    :: (pySliceTo grid r).map
        (fun row => list_to_colstring cellStr row widths col_spacing max_col_width)

/-- Source lines 119-123, `display_as_csv`: the header record followed by
the records of `data_grid[:rows]`, `rows` defaulting to the row count. -/
def display_as_csv (headers : List String) (grid : List (List Cell)) (rows : Option Int) :
    List (List String) :=
  let r : Int := match rows with | none => (grid.length : Int) | some k => k
  headers :: (pySliceTo grid r).map (fun row => row.map cellStr)

/-- Source lines 148-149, `DataFormatter.sort_ascend`. -/
def sort_ascend (grid : List (List Cell)) (cols : List Int) : List (List Cell) :=
  data_sort cellLeB grid cols false

/-- Source lines 151-152, `DataFormatter.sort_descend`. -/
def sort_descend (grid : List (List Cell)) (cols : List Int) : List (List Cell) :=
  data_sort cellLeB grid cols true

instance {ε α : Type} [DecidableEq ε] [DecidableEq α] : DecidableEq (Except ε α) :=
  fun x y =>
    match x, y with
    | .ok a, .ok b => decidable_of_iff (a = b) (by simp)
    | .error a, .error b => decidable_of_iff (a = b) (by simp)
    | .ok _, .error _ => isFalse (by simp)
    | .error _, .ok _ => isFalse (by simp)

/-- Fuel-driven core of `firstOccBy` (structural, so it computes). -/
def firstOccByF (f : α → β) [DecidableEq β] : ℕ → List α → List α
  | _, [] => []
  | 0, _ :: _ => []
  | n + 1, x :: xs => x :: firstOccByF f n (xs.filter (fun y => decide (f y ≠ f x)))

/-- First occurrence of each `f`-class of elements, in order of first
appearance (specification-side helper). -/
def firstOccBy (f : α → β) [DecidableEq β] (l : List α) : List α :=
  firstOccByF f l.length l

/-- Specification-side value of one statistic over the parsed values of a
group; agrees with `acc_get_value` whenever the group is nonempty. -/
def specVal (op : Op) (vs : List ℚ) : ℚ :=
  match op with
  | .COUNT => (vs.length : ℚ)
  | .SUM => qsum vs
  | .AVG => qdivNat (qsum vs) vs.length
  | .MIN => (vs.min?).getD 0
  | .MAX => (vs.max?).getD 0
  | .HEADERS => 0

/-- Specification-side result table over a row list `xs`: one result row
per distinct group projection, in order of first occurrence, whose group
part is the projection and whose stat part aggregates exactly the rows of
`xs` having that projection. -/
def specBlocks (op : Op) (gcols scols : List Int) (xs : List (List Field)) :
    List (List Cell) :=
  (firstOccBy (projRow gcols) xs).map (fun rep =>
    (projRow gcols rep).map Cell.fld ++
      scols.map (fun c => Cell.num (specVal op
        ((xs.filter (fun r => decide (projRow gcols r = projRow gcols rep))).map
          (fun r => (qval r c).getD 0)))))

/-- The accumulator contents after feeding exactly the rows `pvs`, in
order: one value list per stat column. -/
def mkAccs (scols : List Int) (pvs : List (List Field)) : List (List ℚ) :=
  scols.map (fun c => pvs.map (fun r => (qval r c).getD 0))

theorem char_toNat_inj {a b : Char} (h : a.toNat = b.toNat) : a = b := by
  have ha := Char.ofNat_toNat a
  rw [h, Char.ofNat_toNat b] at ha
  exact ha.symm

theorem strLeChars_cons_iff {x y : Char} {xs ys : List Char} :
    strLeChars (x :: xs) (y :: ys) = true ↔
      x.toNat < y.toNat ∨ (x.toNat = y.toNat ∧ strLeChars xs ys = true) := by
  by_cases h1 : x.toNat < y.toNat
  · simp [strLeChars, h1]
  · by_cases h2 : y.toNat < x.toNat
    · simp [strLeChars, h1, h2]
      omega
    · have he : x.toNat = y.toNat := Nat.le_antisymm (Nat.not_lt.1 h2) (Nat.not_lt.1 h1)
      simp [strLeChars, h1, h2, he]

theorem strLeChars_total : ∀ (a b : List Char),
    strLeChars a b = true ∨ strLeChars b a = true := by
  intro a
  induction a with
  | nil => intro b; left; rfl
  | cons x xs ih =>
    intro b
    cases b with
    | nil => right; rfl
    | cons y ys =>
      rcases Nat.lt_trichotomy x.toNat y.toNat with h | h | h
      · exact Or.inl (strLeChars_cons_iff.2 (Or.inl h))
      · rcases ih ys with h' | h'
        · exact Or.inl (strLeChars_cons_iff.2 (Or.inr ⟨h, h'⟩))
        · exact Or.inr (strLeChars_cons_iff.2 (Or.inr ⟨h.symm, h'⟩))
      · exact Or.inr (strLeChars_cons_iff.2 (Or.inl h))

theorem strLeChars_trans : ∀ (a b c : List Char), strLeChars a b = true →
    strLeChars b c = true → strLeChars a c = true := by
  intro a
  induction a with
  | nil => intro b c _ _; rfl
  | cons x xs ih =>
    intro b c hab hbc
    cases b with
    | nil => exact absurd hab (by simp [strLeChars])
    | cons y ys =>
      cases c with
      | nil => exact absurd hbc (by simp [strLeChars])
      | cons z zs =>
        rcases strLeChars_cons_iff.1 hab with h1 | ⟨h1, h1'⟩ <;>
          rcases strLeChars_cons_iff.1 hbc with h2 | ⟨h2, h2'⟩
        · exact strLeChars_cons_iff.2 (Or.inl (Nat.lt_trans h1 h2))
        · exact strLeChars_cons_iff.2 (Or.inl (h2 ▸ h1))
        · exact strLeChars_cons_iff.2 (Or.inl (h1 ▸ h2))
        · exact strLeChars_cons_iff.2 (Or.inr ⟨h1.trans h2, ih ys zs h1' h2'⟩)

theorem strLeChars_antisymm : ∀ (a b : List Char), strLeChars a b = true →
    strLeChars b a = true → a = b := by
  intro a
  induction a with
  | nil =>
    intro b _ hba
    cases b with
    | nil => rfl
    | cons y ys => exact absurd hba (by simp [strLeChars])
  | cons x xs ih =>
    intro b hab hba
    cases b with
    | nil => exact absurd hab (by simp [strLeChars])
    | cons y ys =>
      rcases strLeChars_cons_iff.1 hab with h1 | ⟨h1, h1'⟩ <;>
        rcases strLeChars_cons_iff.1 hba with h2 | ⟨h2, h2'⟩
      · omega
      · omega
      · omega
      · rw [char_toNat_inj h1, ih ys h1' h2']

theorem string_data_inj {a b : String} (h : a.data = b.data) : a = b := by
  cases a
  cases b
  simp only at h
  rw [h]

theorem strLeB_total (a b : String) : strLeB a b = true ∨ strLeB b a = true :=
  strLeChars_total a.data b.data

theorem strLeB_trans {a b c : String} (h1 : strLeB a b = true)
    (h2 : strLeB b c = true) : strLeB a c = true :=
  strLeChars_trans a.data b.data c.data h1 h2

theorem strLeB_antisymm {a b : String} (h1 : strLeB a b = true)
    (h2 : strLeB b a = true) : a = b :=
  string_data_inj (strLeChars_antisymm a.data b.data h1 h2)

theorem fieldLeB_total (a b : Field) : fieldLeB a b = true ∨ fieldLeB b a = true := by
  cases a <;> cases b <;> simp [fieldLeB]
  exact strLeB_total _ _

theorem fieldLeB_trans {a b c : Field} (h1 : fieldLeB a b = true)
    (h2 : fieldLeB b c = true) : fieldLeB a c = true := by
  cases a <;> cases b <;> cases c <;> simp_all [fieldLeB]
  exact strLeB_trans h1 h2

theorem fieldLeB_antisymm {a b : Field} (h1 : fieldLeB a b = true)
    (h2 : fieldLeB b a = true) : a = b := by
  cases a <;> cases b <;> simp_all [fieldLeB]
  exact strLeB_antisymm h1 h2

theorem cellLeB_total (a b : Cell) : cellLeB a b = true ∨ cellLeB b a = true := by
  cases a <;> cases b <;> simp [cellLeB]
  · exact fieldLeB_total _ _
  · exact le_total _ _

theorem cellLeB_trans {a b c : Cell} (h1 : cellLeB a b = true)
    (h2 : cellLeB b c = true) : cellLeB a c = true := by
  cases a <;> cases b <;> cases c <;> simp_all [cellLeB]
  · exact fieldLeB_trans h1 h2
  · exact le_trans h1 h2

theorem cellLeB_antisymm {a b : Cell} (h1 : cellLeB a b = true)
    (h2 : cellLeB b a = true) : a = b := by
  cases a <;> cases b <;> simp_all [cellLeB]
  · exact fieldLeB_antisymm h1 h2
  · exact le_antisymm h1 h2

theorem optLeB_total {le : γ → γ → Bool}
    (hle : ∀ a b, le a b = true ∨ le b a = true) (x y : Option γ) :
    optLeB le x y = true ∨ optLeB le y x = true := by
  cases x <;> cases y <;> simp [optLeB]
  exact hle _ _

theorem optLeB_trans {le : γ → γ → Bool}
    (hle : ∀ a b c, le a b = true → le b c = true → le a c = true)
    {x y z : Option γ} (h1 : optLeB le x y = true) (h2 : optLeB le y z = true) :
    optLeB le x z = true := by
  cases x <;> cases y <;> cases z <;> simp_all [optLeB]
  exact hle _ _ _ h1 h2

theorem optLeB_antisymm {le : γ → γ → Bool}
    (hle : ∀ a b, le a b = true → le b a = true → a = b)
    {x y : Option γ} (h1 : optLeB le x y = true) (h2 : optLeB le y x = true) :
    x = y := by
  cases x <;> cases y <;> simp_all [optLeB]
  exact hle _ _ h1 h2

theorem pyRowLeB_total {le : γ → γ → Bool}
    (hle : ∀ a b, le a b = true ∨ le b a = true) (rev : Bool) (col : Int)
    (r1 r2 : List γ) :
    pyRowLeB le rev col r1 r2 = true ∨ pyRowLeB le rev col r2 r1 = true := by
  cases rev <;> simp only [pyRowLeB, if_true, if_false, Bool.false_eq_true, cond]
  · exact optLeB_total hle _ _
  · exact (optLeB_total hle _ _).symm

theorem pyRowLeB_trans {le : γ → γ → Bool}
    (hle : ∀ a b c, le a b = true → le b c = true → le a c = true)
    (rev : Bool) (col : Int) (r1 r2 r3 : List γ)
    (h1 : pyRowLeB le rev col r1 r2 = true) (h2 : pyRowLeB le rev col r2 r3 = true) :
    pyRowLeB le rev col r1 r3 = true := by
  cases rev <;> simp only [pyRowLeB, if_true, if_false] at h1 h2 ⊢
  · exact optLeB_trans hle h1 h2
  · exact optLeB_trans hle h2 h1

/-- The composite "sorted by the listed columns, first column primary"
comparator that `data_sort` realizes (ascending direction). -/
def compositeLeB (le : γ → γ → Bool) (cols : List Int) (r1 r2 : List γ) : Bool :=
  lexFamB (pyRowLeB le false) cols r1 r2

theorem foldl_stableSort_perm (F : Int → α → α → Bool) :
    ∀ (cs : List Int) (l : List α),
      (cs.foldl (fun d c => stableSort (F c) d) l).Perm l := by
  intro cs
  induction cs with
  | nil => intro l; rfl
  | cons c cs' ih =>
    intro l
    rw [List.foldl_cons]
    exact (ih (stableSort (F c) l)).trans (stableSort_perm (F c) l)

theorem data_sort_perm (le : γ → γ → Bool) (data : List (List γ))
    (cols : List Int) (rev : Bool) : (data_sort le data cols rev).Perm data :=
  foldl_stableSort_perm (pyRowLeB le rev) cols.reverse data

theorem data_sort_eq_enumSort {le : γ → γ → Bool}
    (htot : ∀ a b, le a b = true ∨ le b a = true)
    (htr : ∀ a b c, le a b = true → le b c = true → le a c = true)
    (data : List (List γ)) (cols : List Int) (rev : Bool) :
    data_sort le data cols rev
      = (stableSort (withIdxB (lexFamB (pyRowLeB le rev) cols)) data.enum).map Prod.snd :=
  multiPass_eq_enumSort (fun c a b => pyRowLeB_total htot rev c a b)
    (fun c a b x => pyRowLeB_trans htr rev c a b x) cols data

theorem data_sort_pairwise {le : γ → γ → Bool}
    (htot : ∀ a b, le a b = true ∨ le b a = true)
    (htr : ∀ a b c, le a b = true → le b c = true → le a c = true)
    (data : List (List γ)) (cols : List Int) (rev : Bool) :
    (data_sort le data cols rev).Pairwise
      (fun r1 r2 => lexFamB (pyRowLeB le rev) cols r1 r2 = true) := by
  rw [data_sort_eq_enumSort htot htr]
  have h := stableSort_pairwise
    (fun p q => withIdxB_total (lexFamB_total (fun c a b => pyRowLeB_total htot rev c a b) cols) p q)
    (withIdxB_trans (lexFamB_trans (fun c a b x => pyRowLeB_trans htr rev c a b x) cols))
    data.enum
  exact h.map Prod.snd (fun p q hw => (withIdxB_true_iff.1 hw).1)

/-- C5 (claim): `data_sort` permutes the rows into non-decreasing order
under the composite key taken in column-list order (primary column
first), and the sort is stable: the output arises from tagging rows with
their original positions and sorting by key first, original position on
key-ties.  Stated for any linearly ordered cell type; on string cells
the key comparison is Python's string comparison. -/
theorem data_sort_lex_stable {γ : Type} [LinearOrder γ]
    (rows : List (List γ)) (cols : List Int) :
    (data_sort (fun a b => decide (a ≤ b)) rows cols false).Perm rows ∧
    (data_sort (fun a b => decide (a ≤ b)) rows cols false).Pairwise
      (fun r1 r2 => compositeLeB (fun a b => decide (a ≤ b)) cols r1 r2 = true) ∧
    ∃ E : List (ℕ × List γ), E.Perm rows.enum ∧
      E.map Prod.snd = data_sort (fun a b => decide (a ≤ b)) rows cols false ∧
      E.Pairwise (fun p q =>
        withIdxB (lexFamB (pyRowLeB (fun a b => decide (a ≤ b)) false) cols) p q = true) := by
  have htot : ∀ a b : γ, decide (a ≤ b) = true ∨ decide (b ≤ a) = true := by
    intro a b
    rcases le_total a b with h | h
    · exact Or.inl (by simpa using h)
    · exact Or.inr (by simpa using h)
  have htr : ∀ a b c : γ, decide (a ≤ b) = true → decide (b ≤ c) = true →
      decide (a ≤ c) = true := by
    intro a b c h1 h2
    simp only [decide_eq_true_eq] at h1 h2 ⊢
    exact le_trans h1 h2
  refine ⟨data_sort_perm _ _ _ _, data_sort_pairwise htot htr rows cols false, ?_⟩
  refine ⟨stableSort (withIdxB (lexFamB (pyRowLeB (fun a b => decide (a ≤ b)) false) cols))
    rows.enum, stableSort_perm _ _, (data_sort_eq_enumSort htot htr rows cols false).symm, ?_⟩
  exact stableSort_pairwise
    (fun p q => withIdxB_total (lexFamB_total (fun c a b => pyRowLeB_total htot false c a b) cols) p q)
    (withIdxB_trans (lexFamB_trans (fun c a b x => pyRowLeB_trans htr false c a b x) cols))
    rows.enum

/-- C1 (claim, code divergence): with the group-column list absent
(Python `None`), `ArgRetriever.__init__` evaluates
`self.group_cols + self.stat_cols` at source line 86 and crashes with
`TypeError`, whatever the stat-column value; the module-level "ALL ROWS"
substitution of source lines 247-255 is unreachable, so the run aborts
instead of producing one group covering the whole dataset.  For COUNT,
omitting both lists likewise crashes at line 86. -/
theorem arg_retriever_crashes_without_group_cols :
    (∀ s : Option (List Int), combined_cols none s = none) ∧
    arg_retriever_init Op.COUNT none none =
      .error "TypeError: unsupported operand type(s) for +" ∧
    arg_retriever_init Op.COUNT none (some [0]) =
      .error "TypeError: unsupported operand type(s) for +" ∧
    arg_retriever_init Op.SUM (some [0]) none =
      .error "TypeError: unsupported operand type(s) for +" := by
  refine ⟨?_, rfl, rfl, rfl⟩
  intro s
  cases s <;> rfl

/-- C2 (claim, code divergence): the main loop routes every stat field
through `safe_float` (source line 301) for every operation, COUNT
included, so a non-numeric stat field aborts a COUNT run with the same
non-numeric-data error as a SUM run on the same input. -/
theorem count_aborts_on_non_numeric :
    compute_results Op.COUNT [1] [0] [[some "x", some ALL_ROWS]] =
      .error "Error: found non-numeric data 'x' in row 0, column 0" ∧
    compute_results Op.SUM [1] [0] [[some "x", some ALL_ROWS]] =
      .error "Error: found non-numeric data 'x' in row 0, column 0" := by
  exact ⟨by decide, by decide⟩

/-- C4 (claim, code divergence): for the group-column list [1, 0] the
output header lists the column-1 name before the column-0 name, but the
projection of source line 285 keeps the row's fields in ascending
position order, not in the order the indices were specified, so the
emitted group fields do not match the header order. -/
theorem group_projection_ignores_spec_order :
    projRow [(1 : Int), 0] [some "x", some "y", some ALL_ROWS]
        = [some "x", some "y"] ∧
    projRow [(1 : Int), 0] [some "x", some "y", some ALL_ROWS]
        ≠ [some "y", some "x"] ∧
    result_headers Op.SUM [some "A", some "B", some ALL_ROWS] [(1 : Int), 0] [0]
        = [some "B", some "A", some "SUM A"] := by
  exact ⟨by decide, by decide, by decide⟩

/-- C7 (counterexample): a configured row limit of 0 is not treated as
"render all rows": the CSV renderer emits the header and no data rows,
although rendering with the limit unset emits the one data row. -/
theorem row_limit_zero_renders_nothing :
    display_as_csv ["h"] [[Cell.fld (some "v")]] (some 0) = [["h"]] ∧
    display_as_csv ["h"] [[Cell.fld (some "v")]] none = [["h"], ["v"]] := by
  exact ⟨by decide, by decide⟩

/-- C7 (amended): with the limit unset, all rows are rendered; a limit
K ≥ 0 renders exactly the first min(K, row count) rows — so 0 < K ≤ count
gives exactly the first K rows and K ≥ count the whole table — while a
negative K drops the last |K| rows (Python slice semantics); this holds
for both the CSV renderer and the text renderer, whose data lines follow
the blank line, the header line and the separator rule. -/
theorem row_limit_behavior (headers : List String) (grid : List (List Cell)) :
    (display_as_csv headers grid none
        = headers :: grid.map (fun row => row.map cellStr)) ∧
    (∀ k : Int, 0 ≤ k → display_as_csv headers grid (some k)
        = headers :: (grid.take k.toNat).map (fun row => row.map cellStr)) ∧
    (∀ k : Int, k < 0 → display_as_csv headers grid (some k)
        = headers :: (grid.take ((grid.length : Int) + k).toNat).map
            (fun row => row.map cellStr)) ∧
    ((display headers grid none).drop 3
        = grid.map (fun row => list_to_colstring cellStr row
            (calculate_col_widths headers grid) col_spacing max_col_width)) ∧
    (∀ k : Int, 0 ≤ k → (display headers grid (some k)).drop 3
        = (grid.take k.toNat).map (fun row => list_to_colstring cellStr row
            (calculate_col_widths headers grid) col_spacing max_col_width)) ∧
    (∀ k : Int, k < 0 → (display headers grid (some k)).drop 3
        = (grid.take ((grid.length : Int) + k).toNat).map
            (fun row => list_to_colstring cellStr row
              (calculate_col_widths headers grid) col_spacing max_col_width)) := by
  have hslice_all : pySliceTo grid (grid.length : Int) = grid := by
    rw [pySliceTo, if_neg (by omega)]
    rw [Int.toNat_natCast, List.take_length]
  have hslice_nonneg : ∀ k : Int, 0 ≤ k → pySliceTo grid k = grid.take k.toNat := by
    intro k hk
    rw [pySliceTo, if_neg (by omega)]
  have hslice_neg : ∀ k : Int, k < 0 →
      pySliceTo grid k = grid.take ((grid.length : Int) + k).toNat := by
    intro k hk
    rw [pySliceTo, if_pos hk]
  refine ⟨?_, ?_, ?_, ?_, ?_, ?_⟩
  · simp only [display_as_csv, hslice_all]
  · intro k hk
    simp only [display_as_csv, hslice_nonneg k hk]
  · intro k hk
    simp only [display_as_csv, hslice_neg k hk]
  · simp only [display, hslice_all, List.drop]
  · intro k hk
    simp only [display, hslice_nonneg k hk, List.drop]
  · intro k hk
    simp only [display, hslice_neg k hk, List.drop]

/-- C7 (witness): the amended row-limit behavior at a concrete table with
limit 1 of 2 rows. -/
theorem row_limit_behavior_witness :
    ((0 : Int) ≤ 1) ∧
    display_as_csv ["h"] [[Cell.fld (some "v")], [Cell.fld (some "w")]] (some 1)
      = ["h"] :: (([[Cell.fld (some "v")], [Cell.fld (some "w")]] :
          List (List Cell)).take (Int.toNat 1)).map (fun row => row.map cellStr) :=
  ⟨by decide,
    (row_limit_behavior ["h"] [[Cell.fld (some "v")], [Cell.fld (some "w")]]).2.1 1 (by decide)⟩

/-- C9 (claim): reading the input appends one extra field with the
constant value "ALL ROWS" to every record, the header row included; thus
the header-derived column index space has one more column than the source
file, and the extra final column is identical across all data rows. -/
theorem read_appends_all_rows_column (lines : List (List String)) :
    ((read_data lines).length = lines.length) ∧
    (∀ r ∈ read_data lines, ∃ l ∈ lines, r = l.map some ++ [some ALL_ROWS] ∧
        r.length = l.length + 1 ∧ r.getLast? = some (some ALL_ROWS)) ∧
    (lines ≠ [] → ((read_data lines).headD []).length = (lines.headD []).length + 1) ∧
    (∀ r1 ∈ (read_data lines).tail, ∀ r2 ∈ (read_data lines).tail,
        r1.getLast? = r2.getLast?) := by
  have hmem : ∀ r ∈ read_data lines, ∃ l ∈ lines, r = l.map some ++ [some ALL_ROWS] ∧
      r.length = l.length + 1 ∧ r.getLast? = some (some ALL_ROWS) := by
    intro r hr
    obtain ⟨l, hl, rfl⟩ := List.mem_map.1 hr
    exact ⟨l, hl, rfl, by simp, List.getLast?_concat _⟩
  refine ⟨List.length_map _ _, hmem, ?_, ?_⟩
  · intro hne
    cases lines with
    | nil => exact absurd rfl hne
    | cons x xs => simp [read_data]
  · intro r1 h1 r2 h2
    obtain ⟨l1, _, _, _, hl1⟩ := hmem r1 (List.mem_of_mem_tail h1)
    obtain ⟨l2, _, _, _, hl2⟩ := hmem r2 (List.mem_of_mem_tail h2)
    rw [hl1, hl2]

/-- C9 (witness): the appended-column facts at a concrete two-line file. -/
theorem read_appends_all_rows_column_witness :
    ((["a"].map some ++ [some ALL_ROWS]) ∈ read_data [["h"], ["a"]]) ∧
    (∃ l ∈ [["h"], ["a"]],
      (["a"].map some ++ [some ALL_ROWS]) = l.map some ++ [some ALL_ROWS] ∧
      (["a"].map some ++ [some ALL_ROWS]).length = l.length + 1 ∧
      (["a"].map some ++ [some ALL_ROWS]).getLast? = some (some ALL_ROWS)) :=
  ⟨by decide, (read_appends_all_rows_column [["h"], ["a"]]).2.1 _ (by decide)⟩

theorem enumFrom_filter_map_eq_pickIdx (p : ℕ → Bool) :
    ∀ (n : ℕ) (l : List α),
      ((List.enumFrom n l).filter (fun q => p q.1)).map Prod.snd = pickIdx p n l := by
  intro n l
  induction l generalizing n with
  | nil => rfl
  | cons a as_ ih =>
    simp only [List.enumFrom, pickIdx, List.filter_cons]
    by_cases h : p n
    · simp [h, ih]
    · simp [h, ih]

theorem projRow_eq_pickIdx (gcols : List Int) (row : List Field) :
    projRow gcols row = pickIdx (fun i => decide ((i : Int) ∈ gcols)) 0 row :=
  enumFrom_filter_map_eq_pickIdx (fun i => decide ((i : Int) ∈ gcols)) 0 row

theorem pyGet_neg (row : List α) (c : Int) (hneg : c < 0)
    (hge : 0 ≤ c + (row.length : Int)) :
    pyGet row c = row.get? (c + (row.length : Int)).toNat := by
  rw [pyGet, pyIdx, if_neg (by omega), if_pos hge]
  rfl

theorem max?_spec : ∀ {l : List Int}, l ≠ [] →
    ∃ m, l.max? = some m ∧ m ∈ l ∧ ∀ x ∈ l, x ≤ m := by
  intro l
  induction l with
  | nil => intro h; exact absurd rfl h
  | cons x xs ih =>
    intro _
    cases hxs : xs with
    | nil => exact ⟨x, by simp [List.max?_cons], List.mem_cons_self x [], by simp⟩
    | cons y ys =>
      obtain ⟨m, hm, hmem, hmax⟩ := ih (by simp [hxs])
      rw [hxs] at hm hmem hmax
      refine ⟨max x m, ?_, ?_, ?_⟩
      · rw [List.max?_cons, hm]
        rfl
      · rcases max_choice x m with hc | hc
        · rw [hc]; exact List.mem_cons_self x _
        · rw [hc]; exact List.mem_cons_of_mem x hmem
      · intro z hz
        rcases List.mem_cons.1 hz with rfl | hz'
        · exact le_max_left _ _
        · exact le_trans (hmax z hz') (le_max_right _ _)

theorem validate_cols_eq (headers : List Field) {gcols scols : List Int} {mg ms : Int}
    (hmg : gcols.max? = some mg) (hms : scols.max? = some ms) :
    validate_cols headers gcols scols =
      (if (headers.length : Int) ≤ mg then
        .error "Error: a specified group column is greater than the number of columns."
      else if (headers.length : Int) ≤ ms then
        .error "Error: a specified stat column is greater than the number of columns."
      else .ok ()) := by
  rw [validate_cols, hmg, hms]

/-- C10 (claim): the bounds validation (source lines 260-263) errors
iff some group or stat column index is at least the header length, so any
negative index is accepted; a negative stat column index dereferences the
field counted from the end of the row (Python indexing); and a negative
group column index never equals a nonnegative enumeration position, so it
contributes no field to the group projection. -/
theorem column_bounds_and_negative_indices
    (headers row : List Field) (gcols scols : List Int)
    (hg : gcols ≠ []) (hs : scols ≠ []) :
    ((∃ e, validate_cols headers gcols scols = .error e) ↔
      (∃ c ∈ gcols, (headers.length : Int) ≤ c) ∨
      (∃ c ∈ scols, (headers.length : Int) ≤ c)) ∧
    (∀ c : Int, c < 0 → 0 ≤ c + (row.length : Int) →
      pyGet row c = row.get? (c + (row.length : Int)).toNat) ∧
    (projRow gcols row = projRow (gcols.filter (fun c => decide (0 ≤ c))) row) := by
  obtain ⟨mg, hmg, hmgmem, hmgmax⟩ := max?_spec hg
  obtain ⟨ms, hms, hmsmem, hmsmax⟩ := max?_spec hs
  refine ⟨?_, fun c h1 h2 => pyGet_neg row c h1 h2, ?_⟩
  · rw [validate_cols_eq headers hmg hms]
    constructor
    · rintro ⟨e, he⟩
      by_cases h1 : (headers.length : Int) ≤ mg
      · exact Or.inl ⟨mg, hmgmem, h1⟩
      · rw [if_neg h1] at he
        by_cases h2 : (headers.length : Int) ≤ ms
        · exact Or.inr ⟨ms, hmsmem, h2⟩
        · rw [if_neg h2] at he
          exact absurd he (by simp)
    · intro h
      rcases h with ⟨c, hc, hcle⟩ | ⟨c, hc, hcle⟩
      · rw [if_pos (le_trans hcle (hmgmax c hc))]
        exact ⟨_, rfl⟩
      · by_cases h1 : (headers.length : Int) ≤ mg
        · rw [if_pos h1]
          exact ⟨_, rfl⟩
        · rw [if_neg h1, if_pos (le_trans hcle (hmsmax c hc))]
          exact ⟨_, rfl⟩
  · rw [projRow_eq_pickIdx, projRow_eq_pickIdx]
    congr 1
    funext i
    rw [decide_eq_decide]
    constructor
    · intro hmem
      exact List.mem_filter.2 ⟨hmem, by simp [Int.natCast_nonneg]⟩
    · intro hmem
      exact (List.mem_filter.1 hmem).1

/-- C10 (witness): the three facts at concrete arguments including the
negative indices minus-one and minus-two, which pass validation. -/
theorem column_bounds_and_negative_indices_witness :
    (([-1, 0] : List Int) ≠ []) ∧ (([-2] : List Int) ≠ []) ∧
    (((∃ e, validate_cols [some "A", some "B"] [-1, 0] [-2] = .error e) ↔
        (∃ c ∈ ([-1, 0] : List Int), (([some "A", some "B"] : List Field).length : Int) ≤ c) ∨
        (∃ c ∈ ([-2] : List Int), (([some "A", some "B"] : List Field).length : Int) ≤ c)) ∧
      (∀ c : Int, c < 0 → 0 ≤ c + (([some "x", some "y"] : List Field).length : Int) →
        pyGet ([some "x", some "y"] : List Field) c
          = ([some "x", some "y"] : List Field).get?
              ((c + (([some "x", some "y"] : List Field).length : Int)).toNat)) ∧
      (projRow [-1, 0] [some "x", some "y"]
          = projRow (([-1, 0] : List Int).filter (fun c => decide (0 ≤ c)))
              [some "x", some "y"])) :=
  ⟨by decide, by decide,
    column_bounds_and_negative_indices [some "A", some "B"] [some "x", some "y"]
      [-1, 0] [-2] (by decide) (by decide)⟩

theorem lexFamB_flip (le : γ → γ → Bool) :
    ∀ (cols : List Int) (r1 r2 : List γ),
      lexFamB (pyRowLeB le true) cols r1 r2 = lexFamB (pyRowLeB le false) cols r2 r1 := by
  intro cols
  induction cols with
  | nil => intro r1 r2; rfl
  | cons c cs ih =>
    intro r1 r2
    simp only [lexFamB]
    rw [show pyRowLeB le true c r1 r2 = pyRowLeB le false c r2 r1 from rfl]
    rw [show pyRowLeB le true c r2 r1 = pyRowLeB le false c r1 r2 from rfl]
    rw [ih r1 r2]

theorem lexFamB_both_keys_eq {le : γ → γ → Bool}
    (hanti : ∀ a b, le a b = true → le b a = true → a = b) :
    ∀ (cols : List Int) (r1 r2 : List γ),
      lexFamB (pyRowLeB le false) cols r1 r2 = true →
      lexFamB (pyRowLeB le false) cols r2 r1 = true →
      rowKeys cols r1 = rowKeys cols r2 := by
  intro cols
  induction cols with
  | nil => intro r1 r2 _ _; rfl
  | cons c cs ih =>
    intro r1 r2 h1 h2
    obtain ⟨h1a, h1b⟩ := lexFamB_cons_iff.1 h1
    obtain ⟨h2a, h2b⟩ := lexFamB_cons_iff.1 h2
    have hkey : pyGet r1 c = pyGet r2 c := optLeB_antisymm hanti h1a h2a
    have htail := ih r1 r2 (h1b h2a) (h2b h1a)
    simp only [rowKeys, List.map_cons] at htail ⊢
    rw [hkey, htail]

/-- C6 (counterexample): with two rows tying on the sort column, both
directions are stable, so the descending pass keeps the ascending order
and the result is not the reverse of the ascending order. -/
theorem sort_descend_not_reverse_on_ties :
    sort_descend (sort_ascend [[Cell.fld (some "x"), Cell.fld (some "1")],
        [Cell.fld (some "x"), Cell.fld (some "2")]] [0]) [0]
      ≠ (sort_ascend [[Cell.fld (some "x"), Cell.fld (some "1")],
        [Cell.fld (some "x"), Cell.fld (some "2")]] [0]).reverse := by
  decide

/-- C6 (amended): when no two rows of the result table agree on the
composite key of the chosen column set, re-sorting ascending and then
descending on that column set yields exactly the reverse of the ascending
row order.  (With key ties the claim fails: both stable passes keep the
original tie order, see the counterexample.) -/
theorem sort_descend_reverses_ascend_distinct
    (grid : List (List Cell)) (cols : List Int)
    (hkeys : grid.Pairwise (fun r1 r2 => rowKeys cols r1 ≠ rowKeys cols r2)) :
    sort_descend (sort_ascend grid cols) cols = (sort_ascend grid cols).reverse := by
  have htot := cellLeB_total
  have htr : ∀ a b c : Cell, cellLeB a b = true → cellLeB b c = true →
      cellLeB a c = true := fun a b c h1 h2 => cellLeB_trans h1 h2
  set A := sort_ascend grid cols with hA
  have hApd : A.Pairwise (fun r1 r2 => rowKeys cols r1 ≠ rowKeys cols r2) := by
    have hperm : A.Perm grid := data_sort_perm _ _ _ _
    exact (hperm.pairwise_iff (fun h he => h he.symm)).2 hkeys
  have hAsorted : A.Pairwise
      (fun r1 r2 => lexFamB (pyRowLeB cellLeB false) cols r1 r2 = true) :=
    data_sort_pairwise htot htr grid cols false
  have hAstrict : A.Pairwise (fun r1 r2 =>
      lexFamB (pyRowLeB cellLeB false) cols r1 r2 = true ∧
      lexFamB (pyRowLeB cellLeB false) cols r2 r1 = false) := by
    have hcomb := hAsorted.and hApd
    refine hcomb.imp ?_
    rintro a b ⟨hle, hne⟩
    refine ⟨hle, ?_⟩
    cases hba : lexFamB (pyRowLeB cellLeB false) cols b a with
    | false => rfl
    | true =>
      exact absurd (lexFamB_both_keys_eq
        (fun a b h1 h2 => cellLeB_antisymm h1 h2) cols a b hle hba) hne
  rw [sort_descend, data_sort_eq_enumSort htot htr]
  have hWtot := fun p q => withIdxB_total
    (lexFamB_total (fun c a b => pyRowLeB_total htot true c a b) cols) p q
  have hWtr := withIdxB_trans
    (lexFamB_trans (fun c a b x => pyRowLeB_trans htr true c a b x) cols)
  have hgoal : stableSort (withIdxB (lexFamB (pyRowLeB cellLeB true) cols)) A.enum
      = A.enum.reverse := by
    apply pairwise_perm_nodupFst_eq (fun p q => withIdxB_fst_eq)
    · exact (stableSort_perm _ _).trans (List.reverse_perm A.enum).symm
    · exact stableSort_pairwise hWtot hWtr A.enum
    · rw [List.pairwise_reverse]
      have henum : A.enum.Pairwise (fun p q =>
          lexFamB (pyRowLeB cellLeB false) cols p.2 q.2 = true ∧
          lexFamB (pyRowLeB cellLeB false) cols q.2 p.2 = false) := by
        have h' := hAstrict
        rw [show A = A.enum.map Prod.snd from (List.enum_map_snd A).symm] at h'
        exact List.pairwise_map.1 h'
      refine henum.imp ?_
      rintro p q ⟨h1, h2⟩
      refine withIdxB_true_iff.2 ⟨?_, ?_⟩
      · rw [lexFamB_flip]
        exact h1
      · intro hcontra
        rw [lexFamB_flip, h2] at hcontra
        exact absurd hcontra (by simp)
    · have hperm : ((stableSort (withIdxB (lexFamB (pyRowLeB cellLeB true) cols))
          A.enum).map Prod.fst).Perm (A.enum.map Prod.fst) :=
        (stableSort_perm _ _).map _
      rw [hperm.nodup_iff, List.enum_map_fst]
      exact List.nodup_range _
  rw [hgoal, List.map_reverse, List.enum_map_snd]

/-- C6 (witness): the amended statement at a concrete two-row table with
distinct keys. -/
theorem sort_descend_reverses_ascend_distinct_witness :
    (([[Cell.fld (some "b")], [Cell.fld (some "a")]] : List (List Cell)).Pairwise
      (fun r1 r2 => rowKeys [0] r1 ≠ rowKeys [0] r2)) ∧
    sort_descend (sort_ascend [[Cell.fld (some "b")], [Cell.fld (some "a")]] [0]) [0]
      = (sort_ascend [[Cell.fld (some "b")], [Cell.fld (some "a")]] [0]).reverse :=
  ⟨by decide, sort_descend_reverses_ascend_distinct _ _ (by decide)⟩

theorem ok_bind {ε α β : Type} (a : α) (f : α → Except ε β) :
    (Except.ok a : Except ε α) >>= f = f a := rfl

theorem statValue_of_isSome {row : List Field} {c : Int}
    (h : (qval row c).isSome = true) (ctr : ℕ) :
    statValue ctr row c = .ok ((qval row c).getD 0) := by
  cases hp : pyGet row c with
  | none => simp [qval, hp] at h
  | some f =>
    cases f with
    | none => simp [qval, hp] at h
    | some s =>
      cases hf : pyFloat s with
      | none => simp [qval, hp, hf] at h
      | some q => simp [statValue, qval, hp, hf]

theorem accumRow_cons (ctr : ℕ) (row : List Field) (c : Int) (cs : List Int)
    (a : List ℚ) (as_ : List (List ℚ)) :
    accumRow ctr row (c :: cs) (a :: as_)
      = (statValue ctr row c) >>= (fun q =>
          (accumRow ctr row cs as_) >>= (fun rest =>
            .ok ((a ++ [q]) :: rest))) := rfl

theorem mkAccs_nil (scols : List Int) :
    mkAccs scols [] = scols.map (fun _ => ([] : List ℚ)) := by
  simp [mkAccs]

theorem accumRow_mkAccs (row : List Field) (ctr : ℕ) :
    ∀ (scols : List Int), (∀ c ∈ scols, (qval row c).isSome = true) →
      ∀ (pvs : List (List Field)),
        accumRow ctr row scols (mkAccs scols pvs) = .ok (mkAccs scols (pvs ++ [row])) := by
  intro scols
  induction scols with
  | nil => intro _ pvs; rfl
  | cons c cs ih =>
    intro hval pvs
    have hc := hval c (List.mem_cons_self _ _)
    have hstep := ih (fun c' hc' => hval c' (List.mem_cons_of_mem _ hc')) pvs
    simp only [mkAccs, List.map_cons] at hstep ⊢
    rw [accumRow_cons, statValue_of_isSome hc, ok_bind, hstep, ok_bind]
    simp [List.map_append]

theorem acc_get_value_ok {op : Op} (hop : op ≠ Op.HEADERS) {vs : List ℚ}
    (h : vs ≠ []) : acc_get_value op vs = .ok (specVal op vs) := by
  cases op with
  | COUNT => rfl
  | SUM => rfl
  | AVG =>
    rw [acc_get_value, if_neg (by simp [h])]
    rfl
  | MIN =>
    rw [acc_get_value]
    cases hm : vs.min? with
    | none => exact absurd (List.min?_eq_none_iff.1 hm) h
    | some m => simp [specVal, hm]
  | MAX =>
    rw [acc_get_value]
    cases hm : vs.max? with
    | none => exact absurd (List.max?_eq_none_iff.1 hm) h
    | some m => simp [specVal, hm]
  | HEADERS => exact absurd rfl hop

theorem mapM_acc_get_value (op : Op) (hop : op ≠ Op.HEADERS)
    (pvs : List (List Field)) (hne : pvs ≠ []) :
    ∀ (scols : List Int),
      (mkAccs scols pvs).mapM (acc_get_value op)
        = .ok (scols.map (fun c => specVal op (pvs.map (fun r => (qval r c).getD 0)))) := by
  intro scols
  induction scols with
  | nil => rfl
  | cons c cs ih =>
    simp only [mkAccs, List.map_cons] at ih ⊢
    rw [List.mapM_cons, acc_get_value_ok hop (by simp [hne]), ok_bind, ih, ok_bind]
    rfl

theorem groupLoop_singleton (op : Op) (gcols scols : List Int)
    (row prev : List Field) (accs : List (List ℚ)) (ctr : ℕ) :
    groupLoop op gcols scols [row] prev accs ctr
      = (if projRow gcols row = prev then .ok []
        else (accs.mapM (acc_get_value op)) >>= (fun vs =>
          .ok [prev.map Cell.fld ++ vs.map Cell.num])) := rfl

theorem groupLoop_cons (op : Op) (gcols scols : List Int)
    (row : List Field) (rest : List (List Field)) (hne : rest ≠ [])
    (prev : List Field) (accs : List (List ℚ)) (ctr : ℕ) :
    groupLoop op gcols scols (row :: rest) prev accs ctr
      = (if projRow gcols row = prev then
          (accumRow ctr row scols accs) >>= (fun accs2 =>
            groupLoop op gcols scols rest (projRow gcols row) accs2 (ctr + 1))
        else
          (accs.mapM (acc_get_value op)) >>= (fun vs =>
          (accumRow ctr row scols (accs.map (fun _ => ([] : List ℚ)))) >>= (fun accs2 =>
          (groupLoop op gcols scols rest (projRow gcols row) accs2 (ctr + 1)) >>= (fun out =>
            .ok ((prev.map Cell.fld ++ vs.map Cell.num) :: out))))) := by
  cases rest with
  | nil => exact absurd rfl hne
  | cons b t => rfl

theorem pickIdx_congr (p : ℕ → Bool) :
    ∀ (l1 : List α) (l2 : List α) (n : ℕ), l1.length = l2.length →
      (∀ i, p (n + i) = true → l1.get? i = l2.get? i) →
      pickIdx p n l1 = pickIdx p n l2 := by
  intro l1
  induction l1 with
  | nil =>
    intro l2 n hlen _
    cases l2 with
    | nil => rfl
    | cons b bs => simp at hlen
  | cons a as_ ih =>
    intro l2 n hlen hpt
    cases l2 with
    | nil => simp at hlen
    | cons b bs =>
      have hlen' : as_.length = bs.length := by simpa using hlen
      have htail : ∀ i, p (n + 1 + i) = true → as_.get? i = bs.get? i := by
        intro i hi
        have h := hpt (i + 1) (by rw [show n + (i + 1) = n + 1 + i by omega]; exact hi)
        simpa using h
      cases hp : p n with
      | true =>
        have hhead : a = b := by
          have h := hpt 0 (by simpa using hp)
          simpa using h
        simp [pickIdx, hp, hhead, ih bs (n + 1) hlen' htail]
      | false => simp [pickIdx, hp, ih bs (n + 1) hlen' htail]

theorem pickIdx_eq_imp (p : ℕ → Bool) :
    ∀ (l1 : List α) (l2 : List α) (n : ℕ), l1.length = l2.length →
      pickIdx p n l1 = pickIdx p n l2 →
      ∀ i, p (n + i) = true → l1.get? i = l2.get? i := by
  intro l1
  induction l1 with
  | nil =>
    intro l2 n hlen _ i _
    cases l2 with
    | nil => rfl
    | cons b bs => simp at hlen
  | cons a as_ ih =>
    intro l2 n hlen heq i hpi
    cases l2 with
    | nil => simp at hlen
    | cons b bs =>
      have hlen' : as_.length = bs.length := by simpa using hlen
      cases hp : p n with
      | true =>
        simp only [pickIdx, hp, if_true, List.cons.injEq] at heq
        obtain ⟨hab, htl⟩ := heq
        cases i with
        | zero => simp [hab]
        | succ j =>
          have h := ih bs (n + 1) hlen' htl j
            (by rw [show n + 1 + j = n + (j + 1) by omega]; exact hpi)
          simpa using h
      | false =>
        simp only [pickIdx, hp, if_false] at heq
        cases i with
        | zero =>
          rw [show n + 0 = n by omega] at hpi
          rw [hpi] at hp
          exact absurd hp (by simp)
        | succ j =>
          have h := ih bs (n + 1) hlen' heq j
            (by rw [show n + 1 + j = n + (j + 1) by omega]; exact hpi)
          simpa using h

theorem pyGet_nonneg {l : List α} {c : Int} (h0 : 0 ≤ c) (hL : c < (l.length : Int)) :
    pyGet l c = l.get? c.toNat := by
  rw [pyGet, pyIdx, if_pos h0, if_pos hL]
  rfl

theorem map_eq_map_pointwise {f g : α → β} :
    ∀ {l : List α}, l.map f = l.map g → ∀ a ∈ l, f a = g a := by
  intro l
  induction l with
  | nil => intro _ a ha; simp at ha
  | cons x xs ih =>
    intro h a ha
    simp only [List.map_cons, List.cons.injEq] at h
    rcases List.mem_cons.1 ha with rfl | ha'
    · exact h.1
    · exact ih h.2 a ha'

theorem proj_eq_iff_keys_eq {gcols : List Int} {L : ℕ}
    (hgb : ∀ c ∈ gcols, 0 ≤ c ∧ c < (L : Int))
    {r1 r2 : List Field} (h1 : r1.length = L) (h2 : r2.length = L) :
    projRow gcols r1 = projRow gcols r2 ↔ rowKeys gcols r1 = rowKeys gcols r2 := by
  constructor
  · intro hp
    rw [projRow_eq_pickIdx, projRow_eq_pickIdx] at hp
    have hpt := pickIdx_eq_imp _ r1 r2 0 (by rw [h1, h2]) hp
    apply List.map_congr_left
    intro c hc
    obtain ⟨hc0, hcL⟩ := hgb c hc
    have hg1 : pyGet r1 c = r1.get? c.toNat := pyGet_nonneg hc0 (by rw [h1]; exact hcL)
    have hg2 : pyGet r2 c = r2.get? c.toNat := pyGet_nonneg hc0 (by rw [h2]; exact hcL)
    rw [hg1, hg2]
    have h := hpt c.toNat (by
      rw [Nat.zero_add]
      rw [decide_eq_true_eq]
      rw [Int.toNat_of_nonneg hc0]
      exact hc)
    exact h
  · intro hk
    rw [projRow_eq_pickIdx, projRow_eq_pickIdx]
    apply pickIdx_congr _ r1 r2 0 (by rw [h1, h2])
    intro i hpi
    rw [Nat.zero_add, decide_eq_true_eq] at hpi
    obtain ⟨h0, hL⟩ := hgb _ hpi
    have hpoint := map_eq_map_pointwise hk _ hpi
    rw [pyGet_nonneg h0 (by rw [h1]; exact hL),
        pyGet_nonneg h0 (by rw [h2]; exact hL), Int.toNat_natCast] at hpoint
    exact hpoint

theorem proj_ne_dummy {gcols : List Int} {L : ℕ} (hgne : gcols ≠ [])
    (hgb : ∀ c ∈ gcols, 0 ≤ c ∧ c < (L : Int))
    {r : List Field} (hr : r.length = L) (hsome : ∀ f ∈ r, f.isSome = true) :
    projRow gcols r ≠ projRow gcols (List.replicate L none) := by
  intro heq
  obtain ⟨c, hc⟩ := List.exists_mem_of_ne_nil gcols hgne
  obtain ⟨h0, hL⟩ := hgb c hc
  rw [projRow_eq_pickIdx, projRow_eq_pickIdx] at heq
  have hpt := pickIdx_eq_imp _ r (List.replicate L none) 0 (by simp [hr]) heq
  have hlt : c.toNat < L := by omega
  have hi := hpt c.toNat (by
    rw [Nat.zero_add, decide_eq_true_eq, Int.toNat_of_nonneg h0]
    exact hc)
  have hrep : (List.replicate L (none : Field)).get? c.toNat = some none := by
    simp [List.get?_eq_getElem?, List.getElem?_replicate, hlt]
  rw [hrep] at hi
  have hmem : (none : Field) ∈ r := List.get?_mem hi
  have h := hsome none hmem
  simp at h

theorem lexFamB_congr_keys {le : γ → γ → Bool} :
    ∀ (cols : List Int) (a b b' : List γ),
      rowKeys cols b = rowKeys cols b' →
      lexFamB (pyRowLeB le false) cols a b = lexFamB (pyRowLeB le false) cols a b' := by
  intro cols
  induction cols with
  | nil => intro a b b' _; rfl
  | cons c cs ih =>
    intro a b b' hk
    simp only [rowKeys, List.map_cons, List.cons.injEq] at hk
    obtain ⟨hhead, htail⟩ := hk
    simp only [lexFamB]
    rw [show pyRowLeB le false c a b = optLeB le (pyGet a c) (pyGet b c) from rfl,
        show pyRowLeB le false c b a = optLeB le (pyGet b c) (pyGet a c) from rfl,
        show pyRowLeB le false c a b' = optLeB le (pyGet a c) (pyGet b' c) from rfl,
        show pyRowLeB le false c b' a = optLeB le (pyGet b' c) (pyGet a c) from rfl,
        hhead, ih a b b' (by simp [rowKeys, htail])]

theorem firstOccByF_fuel (f : α → β) [DecidableEq β] :
    ∀ (n m : ℕ) (l : List α), l.length ≤ n → l.length ≤ m →
      firstOccByF f n l = firstOccByF f m l := by
  intro n
  induction n with
  | zero =>
    intro m l h1 _
    cases l with
    | nil => cases m <;> rfl
    | cons x xs => simp at h1
  | succ n' ih =>
    intro m l h1 h2
    cases l with
    | nil => cases m <;> rfl
    | cons x xs =>
      cases m with
      | zero => simp at h2
      | succ m' =>
        simp only [firstOccByF]
        rw [ih m' _ (le_trans (List.length_filter_le _ _) (by simpa using h1))
            (le_trans (List.length_filter_le _ _) (by simpa using h2))]

theorem firstOccBy_cons (f : α → β) [DecidableEq β] (x : α) (xs : List α) :
    firstOccBy f (x :: xs)
      = x :: firstOccBy f (xs.filter (fun y => decide (f y ≠ f x))) := by
  rw [firstOccBy, firstOccBy]
  rw [show (x :: xs).length = xs.length + 1 from rfl]
  simp only [firstOccByF]
  rw [firstOccByF_fuel f xs.length (xs.filter (fun y => decide (f y ≠ f x))).length _
      (List.length_filter_le _ _) (le_refl _)]

theorem mem_of_mem_firstOccByF (f : α → β) [DecidableEq β] :
    ∀ (n : ℕ) (l : List α) (y : α), y ∈ firstOccByF f n l → y ∈ l := by
  intro n
  induction n with
  | zero =>
    intro l y h
    cases l with
    | nil => simp [firstOccByF] at h
    | cons x xs => simp [firstOccByF] at h
  | succ n' ih =>
    intro l y h
    cases l with
    | nil => simp [firstOccByF] at h
    | cons x xs =>
      simp only [firstOccByF, List.mem_cons] at h
      rcases h with rfl | h'
      · exact List.mem_cons_self _ _
      · exact List.mem_cons_of_mem _ (List.mem_of_mem_filter (ih _ y h'))

theorem mem_of_mem_firstOccBy {f : α → β} [DecidableEq β] {l : List α} {y : α}
    (h : y ∈ firstOccBy f l) : y ∈ l :=
  mem_of_mem_firstOccByF f l.length l y h

theorem map_firstOccByF_mem_iff (f : α → β) [DecidableEq β] :
    ∀ (n : ℕ) (l : List α), l.length ≤ n → ∀ (b : β),
      (b ∈ (firstOccByF f n l).map f ↔ b ∈ l.map f) := by
  intro n
  induction n with
  | zero =>
    intro l h b
    cases l with
    | nil => rfl
    | cons x xs => simp at h
  | succ n' ih =>
    intro l h b
    cases l with
    | nil => rfl
    | cons x xs =>
      simp only [firstOccByF, List.map_cons, List.mem_cons]
      have hlen : (xs.filter (fun y => decide (f y ≠ f x))).length ≤ n' :=
        le_trans (List.length_filter_le _ _) (by simpa using h)
      rw [ih _ hlen b]
      constructor
      · rintro (rfl | hb)
        · exact Or.inl rfl
        · obtain ⟨y, hy, rfl⟩ := List.mem_map.1 hb
          exact Or.inr (List.mem_map_of_mem f (List.mem_of_mem_filter hy))
      · rintro (rfl | hb)
        · exact Or.inl rfl
        · by_cases hbx : b = f x
          · exact Or.inl hbx
          · obtain ⟨y, hy, rfl⟩ := List.mem_map.1 hb
            exact Or.inr (List.mem_map_of_mem f
              (List.mem_filter.2 ⟨hy, by simpa using hbx⟩))

theorem map_firstOccByF_nodup (f : α → β) [DecidableEq β] :
    ∀ (n : ℕ) (l : List α), ((firstOccByF f n l).map f).Nodup := by
  intro n
  induction n with
  | zero =>
    intro l
    cases l <;> simp [firstOccByF]
  | succ n' ih =>
    intro l
    cases l with
    | nil => simp [firstOccByF]
    | cons x xs =>
      simp only [firstOccByF, List.map_cons, List.nodup_cons]
      refine ⟨?_, ih _⟩
      intro hmem
      obtain ⟨y, hy, hyx⟩ := List.mem_map.1 hmem
      have hyf := mem_of_mem_firstOccByF f n' _ y hy
      have hne := (List.mem_filter.1 hyf).2
      rw [decide_eq_true_eq] at hne
      exact hne hyx

theorem firstOccByF_sublist (f : α → β) [DecidableEq β] :
    ∀ (n : ℕ) (l : List α), List.Sublist (firstOccByF f n l) l := by
  intro n
  induction n with
  | zero =>
    intro l
    cases l with
    | nil => simp [firstOccByF]
    | cons x xs => simp [firstOccByF]
  | succ n' ih =>
    intro l
    cases l with
    | nil => simp [firstOccByF]
    | cons x xs =>
      simp only [firstOccByF]
      exact ((ih _).trans (List.filter_sublist _)).cons₂ x

theorem firstOccBy_class_front (f : α → β) [DecidableEq β]
    (p0 : α) (ps rest : List α)
    (hps : ∀ p ∈ ps, f p = f p0)
    (hrest : ∀ r ∈ rest, f r ≠ f p0) :
    firstOccBy f ((p0 :: ps) ++ rest) = p0 :: firstOccBy f rest := by
  rw [List.cons_append, firstOccBy_cons]
  congr 1
  rw [List.filter_append]
  have h1 : ps.filter (fun y => decide (f y ≠ f p0)) = [] :=
    List.filter_eq_nil_iff.2 (fun a ha => by simp [hps a ha])
  have h2 : rest.filter (fun y => decide (f y ≠ f p0)) = rest :=
    List.filter_eq_self.2 (fun a ha => by simpa using hrest a ha)
  rw [h1, h2, List.nil_append]

theorem specBlocks_class_front (op : Op) (gcols scols : List Int)
    (p0 : List Field) (ps rest : List (List Field))
    (hps : ∀ p ∈ ps, projRow gcols p = projRow gcols p0)
    (hrest : ∀ r ∈ rest, projRow gcols r ≠ projRow gcols p0) :
    specBlocks op gcols scols ((p0 :: ps) ++ rest)
      = ((projRow gcols p0).map Cell.fld ++ scols.map (fun c => Cell.num (specVal op
          ((p0 :: ps).map (fun r => (qval r c).getD 0)))))
        :: specBlocks op gcols scols rest := by
  rw [specBlocks, firstOccBy_class_front (projRow gcols) p0 ps rest hps hrest,
    List.map_cons]
  congr 1
  · have hfil : ((p0 :: ps) ++ rest).filter
        (fun r => decide (projRow gcols r = projRow gcols p0)) = p0 :: ps := by
      rw [List.filter_append]
      have h1 : (p0 :: ps).filter
          (fun r => decide (projRow gcols r = projRow gcols p0)) = p0 :: ps :=
        List.filter_eq_self.2 (fun a ha => by
          rcases List.mem_cons.1 ha with rfl | ha'
          · simp
          · simp [hps a ha'])
      have h2 : rest.filter
          (fun r => decide (projRow gcols r = projRow gcols p0)) = [] :=
        List.filter_eq_nil_iff.2 (fun a ha => by simp [hrest a ha])
      rw [h1, h2, List.append_nil]
    rw [hfil]
  · rw [specBlocks]
    apply List.map_congr_left
    intro rep hrep
    have hrepmem : rep ∈ rest := mem_of_mem_firstOccBy hrep
    have hne := hrest rep hrepmem
    have hfil : ((p0 :: ps) ++ rest).filter
        (fun r => decide (projRow gcols r = projRow gcols rep))
        = rest.filter (fun r => decide (projRow gcols r = projRow gcols rep)) := by
      rw [List.filter_append]
      have h1 : (p0 :: ps).filter
          (fun r => decide (projRow gcols r = projRow gcols rep)) = [] := by
        apply List.filter_eq_nil_iff.2
        intro a ha
        have hag : projRow gcols a = projRow gcols p0 := by
          rcases List.mem_cons.1 ha with rfl | ha'
          · rfl
          · exact hps a ha'
        rw [decide_eq_true_eq]
        intro hcontra
        exact hne (by rw [← hcontra, hag])
      rw [h1, List.nil_append]
    rw [hfil]

/-- The grouping-loop invariant: mid-run, with the rows `pvs` of the
current group already accumulated and `rest` still to process (terminal
row appended), the loop returns exactly the specification-side blocks of
`pvs ++ rest`. -/
theorem groupLoop_spec (op : Op) (gcols scols : List Int) (L : ℕ)
    (hop : op ≠ Op.HEADERS) (hgne : gcols ≠ [])
    (hgb : ∀ c ∈ gcols, 0 ≤ c ∧ c < (L : Int)) :
    ∀ (rest pvs : List (List Field)) (g : List Field) (ctr : ℕ),
      pvs ≠ [] →
      (∀ p ∈ pvs, projRow gcols p = g) →
      (∀ r ∈ pvs ++ rest, r.length = L) →
      (∀ r ∈ pvs ++ rest, ∀ fd ∈ r, fd.isSome = true) →
      (∀ r ∈ pvs ++ rest, ∀ c ∈ scols, (qval r c).isSome = true) →
      ((pvs ++ rest).Pairwise (fun r1 r2 =>
        lexFamB (pyRowLeB fieldLeB false) gcols r1 r2 = true)) →
      groupLoop op gcols scols (rest ++ [List.replicate L none]) g
          (mkAccs scols pvs) ctr
        = .ok (specBlocks op gcols scols (pvs ++ rest)) := by
  intro rest
  induction rest with
  | nil =>
    intro pvs g ctr hpne hg hlen hsome hnum _
    obtain ⟨p0, ps, rfl⟩ := List.exists_cons_of_ne_nil hpne
    have hg0 : projRow gcols p0 = g := hg p0 (by simp)
    rw [List.nil_append, groupLoop_singleton]
    have hdne : projRow gcols (List.replicate L none) ≠ g := by
      intro h
      exact proj_ne_dummy hgne hgb (hlen p0 (by simp))
        (hsome p0 (by simp)) (hg0.trans h.symm)
    rw [if_neg hdne]
    rw [mapM_acc_get_value op hop _ hpne scols, ok_bind]
    rw [specBlocks_class_front op gcols scols p0 ps []
        (fun p hp => (hg p (List.mem_cons_of_mem _ hp)).trans hg0.symm)
        (fun r hr => absurd hr (List.not_mem_nil r))]
    rw [show specBlocks op gcols scols [] = [] from rfl, ← hg0]
    simp [List.map_map, Function.comp]
  | cons row rest' ih =>
    intro pvs g ctr hpne hg hlen hsome hnum hsort
    obtain ⟨p0, ps, rfl⟩ := List.exists_cons_of_ne_nil hpne
    have hg0 : projRow gcols p0 = g := hg p0 (by simp)
    rw [List.cons_append, groupLoop_cons op gcols scols row
        (rest' ++ [List.replicate L none]) (by simp) _ _ _]
    by_cases hrow : projRow gcols row = g
    · rw [if_pos hrow]
      rw [accumRow_mkAccs row ctr scols (hnum row (by simp)) (p0 :: ps), ok_bind, hrow]
      have hassoc : ((p0 :: ps) ++ [row]) ++ rest' = (p0 :: ps) ++ (row :: rest') := by
        rw [List.append_assoc]
        rfl
      have hih := ih ((p0 :: ps) ++ [row]) g (ctr + 1) (by simp)
        (by
          intro p hp
          rcases List.mem_append.1 hp with hp' | hp'
          · exact hg p hp'
          · rw [List.mem_singleton.1 hp']
            exact hrow)
        (by rw [hassoc]; exact hlen)
        (by rw [hassoc]; exact hsome)
        (by rw [hassoc]; exact hnum)
        (by rw [hassoc]; exact hsort)
      rw [hih, hassoc]
    · rw [if_neg hrow]
      rw [mapM_acc_get_value op hop _ hpne scols, ok_bind]
      have hreset : (mkAccs scols (p0 :: ps)).map (fun _ => ([] : List ℚ))
          = mkAccs scols [] := by
        rw [mkAccs, mkAccs, List.map_map]
        rfl
      rw [hreset, accumRow_mkAccs row ctr scols (hnum row (by simp)) [], ok_bind]
      simp only [List.nil_append]
      obtain ⟨hpv, hrr, hcross⟩ := List.pairwise_append.1 hsort
      have hnog : ∀ r ∈ row :: rest', projRow gcols r ≠ g := by
        intro r hr hcontra
        rcases List.mem_cons.1 hr with rfl | hrmem
        · exact hrow hcontra
        · have hrlen : r.length = L := hlen r
            (List.mem_append.2 (Or.inr (List.mem_cons_of_mem _ hrmem)))
          have hp0len : p0.length = L := hlen p0 (by simp)
          have hkeysrp0 : rowKeys gcols r = rowKeys gcols p0 :=
            (proj_eq_iff_keys_eq hgb hrlen hp0len).1 (hcontra.trans hg0.symm)
          have hp0row : lexFamB (pyRowLeB fieldLeB false) gcols p0 row = true :=
            hcross p0 (by simp) row (by simp)
          have hrowr : lexFamB (pyRowLeB fieldLeB false) gcols row r = true :=
            (List.pairwise_cons.1 hrr).1 r hrmem
          have hrowp0 : lexFamB (pyRowLeB fieldLeB false) gcols row p0 = true := by
            rw [← lexFamB_congr_keys gcols row r p0 hkeysrp0]
            exact hrowr
          have hkeys : rowKeys gcols p0 = rowKeys gcols row :=
            lexFamB_both_keys_eq (fun a b h1 h2 => fieldLeB_antisymm h1 h2)
              gcols p0 row hp0row hrowp0
          have hrowlen : row.length = L := hlen row (by simp)
          have hproj : projRow gcols p0 = projRow gcols row :=
            (proj_eq_iff_keys_eq hgb hp0len hrowlen).2 hkeys
          exact hrow (hproj ▸ hg0)
      have hih := ih [row] (projRow gcols row) (ctr + 1) (by simp)
        (by intro p hp; rw [List.mem_singleton.1 hp])
        (by
          intro r hr
          rcases List.mem_append.1 hr with hr' | hr'
          · rw [List.mem_singleton.1 hr']
            exact hlen row (by simp)
          · exact hlen r (List.mem_append.2 (Or.inr (List.mem_cons_of_mem _ hr'))))
        (by
          intro r hr
          rcases List.mem_append.1 hr with hr' | hr'
          · rw [List.mem_singleton.1 hr']
            exact hsome row (by simp)
          · exact hsome r (List.mem_append.2 (Or.inr (List.mem_cons_of_mem _ hr'))))
        (by
          intro r hr
          rcases List.mem_append.1 hr with hr' | hr'
          · rw [List.mem_singleton.1 hr']
            exact hnum row (by simp)
          · exact hnum r (List.mem_append.2 (Or.inr (List.mem_cons_of_mem _ hr'))))
        (by
          have hsub : List.Sublist (([row] : List (List Field)) ++ rest')
              ((p0 :: ps) ++ (row :: rest')) := by
            rw [List.singleton_append]
            exact List.sublist_append_right _ _
          exact hsort.sublist hsub)
      rw [List.singleton_append] at hih
      rw [hih, ok_bind]
      rw [specBlocks_class_front op gcols scols p0 ps (row :: rest')
        (fun p hp => (hg p (List.mem_cons_of_mem _ hp)).trans hg0.symm)
        (fun r hr => fun hc => hnog r hr (hc.trans hg0))]
      rw [← hg0]
      simp [List.map_map, Function.comp]

/-- The whole post-validation computation equals the specification-side
blocks of the sorted data. -/
theorem compute_results_eq_specBlocks (op : Op) (gcols scols : List Int) (L : ℕ)
    (data : List (List Field))
    (hop : op ≠ Op.HEADERS) (hne : data ≠ []) (hgne : gcols ≠ [])
    (hgb : ∀ c ∈ gcols, 0 ≤ c ∧ c < (L : Int))
    (hlen : ∀ r ∈ data, r.length = L)
    (hsome : ∀ r ∈ data, ∀ fd ∈ r, fd.isSome = true)
    (hnum : ∀ r ∈ data, ∀ c ∈ scols, (qval r c).isSome = true) :
    compute_results op gcols scols data
      = .ok (specBlocks op gcols scols (data_sort fieldLeB data gcols false)) := by
  have hperm := data_sort_perm fieldLeB data gcols false
  have hsne : data_sort fieldLeB data gcols false ≠ [] := by
    intro h
    rw [h] at hperm
    exact hne hperm.nil_eq.symm
  obtain ⟨s0, srest, hcons⟩ := List.exists_cons_of_ne_nil hsne
  have hmemd : ∀ r ∈ data_sort fieldLeB data gcols false, r ∈ data :=
    fun r hr => hperm.subset hr
  have hs0mem : s0 ∈ data := hmemd s0 (by rw [hcons]; exact List.mem_cons_self _ _)
  have hs0len : s0.length = L := hlen s0 hs0mem
  have hsorted := data_sort_pairwise fieldLeB_total
    (fun a b c h1 h2 => fieldLeB_trans h1 h2) data gcols false
  have hunfold : compute_results op gcols scols data
      = groupLoop op gcols scols
          (data_sort fieldLeB data gcols false
            ++ [List.replicate ((data_sort fieldLeB data gcols false).headD []).length
                  (none : Field)])
          (projRow gcols ((data_sort fieldLeB data gcols false
            ++ [List.replicate ((data_sort fieldLeB data gcols false).headD []).length
                  (none : Field)]).headD []))
          (scols.map (fun _ => ([] : List ℚ))) 0 := rfl
  rw [hunfold, hcons]
  simp only [List.cons_append, List.headD_cons]
  rw [hs0len]
  rw [groupLoop_cons op gcols scols s0 (srest ++ [List.replicate L none])
      (by simp) _ _ _]
  rw [if_pos rfl]
  rw [← mkAccs_nil scols, accumRow_mkAccs s0 0 scols (hnum s0 hs0mem) [], ok_bind]
  simp only [List.nil_append]
  rw [groupLoop_spec op gcols scols L hop hgne hgb srest [s0] (projRow gcols s0) 1
      (by simp)
      (fun p hp => by rw [List.mem_singleton.1 hp])
      (by
        intro r hr
        rw [List.singleton_append] at hr
        exact hlen r (hmemd r (by rw [hcons]; exact hr)))
      (by
        intro r hr
        rw [List.singleton_append] at hr
        exact hsome r (hmemd r (by rw [hcons]; exact hr)))
      (by
        intro r hr
        rw [List.singleton_append] at hr
        exact hnum r (hmemd r (by rw [hcons]; exact hr)))
      (by
        rw [List.singleton_append, ← hcons]
        exact hsorted)]
  rw [List.singleton_append]

/-- C3 (claim): for nonempty data whose stat fields are all numeric (and
whose group columns are nonempty, nonnegative and in bounds), the run
succeeds and the emitted table is exactly the specification-side table
over the sorted data: one result row per distinct group projection, in
order of first occurrence; the emitted group keys are distinct and are
exactly the distinct projections of the input (no group dropped, merged
or duplicated); each row's stat part aggregates exactly the rows whose
projection matched (the filter inside `specBlocks`); and the group
representatives are emitted in non-decreasing composite-key order. -/
theorem grouping_loop_correct (op : Op) (gcols scols : List Int) (L : ℕ)
    (data : List (List Field))
    (hop : op ≠ Op.HEADERS) (hne : data ≠ []) (hgne : gcols ≠ [])
    (hgb : ∀ c ∈ gcols, 0 ≤ c ∧ c < (L : Int))
    (hlen : ∀ r ∈ data, r.length = L)
    (hsome : ∀ r ∈ data, ∀ fd ∈ r, fd.isSome = true)
    (hnum : ∀ r ∈ data, ∀ c ∈ scols, (qval r c).isSome = true) :
    ∃ resRows, compute_results op gcols scols data = .ok resRows ∧
      resRows = specBlocks op gcols scols (data_sort fieldLeB data gcols false) ∧
      (data_sort fieldLeB data gcols false).Perm data ∧
      ((firstOccBy (projRow gcols) (data_sort fieldLeB data gcols false)).map
          (projRow gcols)).Nodup ∧
      (∀ gk, gk ∈ (firstOccBy (projRow gcols) (data_sort fieldLeB data gcols false)).map
          (projRow gcols) ↔ gk ∈ data.map (projRow gcols)) ∧
      ((firstOccBy (projRow gcols) (data_sort fieldLeB data gcols false)).Pairwise
          (fun r1 r2 => lexFamB (pyRowLeB fieldLeB false) gcols r1 r2 = true)) := by
  refine ⟨_, compute_results_eq_specBlocks op gcols scols L data hop hne hgne hgb
    hlen hsome hnum, rfl, data_sort_perm _ _ _ _, ?_, ?_, ?_⟩
  · exact map_firstOccByF_nodup _ _ _
  · intro gk
    have h1 := map_firstOccByF_mem_iff (projRow gcols)
      (data_sort fieldLeB data gcols false).length
      (data_sort fieldLeB data gcols false) (le_refl _) gk
    rw [firstOccBy, h1]
    exact ((data_sort_perm fieldLeB data gcols false).map (projRow gcols)).mem_iff
  · have hs := data_sort_pairwise fieldLeB_total
      (fun a b c h1 h2 => fieldLeB_trans h1 h2) data gcols false
    exact hs.sublist (firstOccByF_sublist _ _ _)

/-- C3 (witness): the grouping-correctness statement at a concrete
two-row, two-group SUM run. -/
theorem grouping_loop_correct_witness :
    (∀ r ∈ ([[some "b", some "1", some ALL_ROWS],
        [some "a", some "2", some ALL_ROWS]] : List (List Field)),
      ∀ c ∈ ([(1 : Int)] : List Int), (qval r c).isSome = true) ∧
    (∃ resRows, compute_results Op.SUM [0] [1]
        [[some "b", some "1", some ALL_ROWS], [some "a", some "2", some ALL_ROWS]]
      = .ok resRows ∧
      resRows = specBlocks Op.SUM [0] [1] (data_sort fieldLeB
        [[some "b", some "1", some ALL_ROWS],
         [some "a", some "2", some ALL_ROWS]] [0] false)) :=
  ⟨by decide, by
    obtain ⟨rr, h1, h2, _⟩ := grouping_loop_correct Op.SUM [0] [1] 3
      [[some "b", some "1", some ALL_ROWS], [some "a", some "2", some ALL_ROWS]]
      (by decide) (by decide) (by decide) (by decide) (by decide) (by decide) (by decide)
    exact ⟨rr, h1, h2⟩⟩

end CsvPresto
